import Mathlib

/-!
Shallow embedding of the EchoQuery language server
(`EchoQueryServer` in `packages/server/src/echoquery-server.ts`).

Text is modelled as `List Char` (the server only ever handles ASCII query
text; JavaScript string operations are modelled at that granularity).
Each definition mirrors one source function or expression; comments name
the source construct being embedded.
-/

namespace EchoQuery

abbrev Str := List Char

/-- Convert a Lean string literal to the `List Char` representation. -/
def str (s : String) : Str := s.data

/-- JavaScript `\w` character class: `[A-Za-z0-9_]`. -/
def wordChar (c : Char) : Bool := c.isAlpha || c.isDigit || c == '_'

/-- JavaScript whitespace (`\s`, ASCII part), as used by `trim()` and `\s+`. -/
def isWsChar (c : Char) : Bool :=
  c == ' ' || c == '\t' || c == '\n' || c == '\r' || c == '\x0b' || c == '\x0c'

/-- ASCII uppercasing of one character, modelling `String.toUpperCase` on
the ASCII text the server handles. -/
def upChar (c : Char) : Char :=
  if 'a' ≤ c ∧ c ≤ 'z' then Char.ofNat (c.toNat - 32) else c

/-- `s.toUpperCase()` on ASCII text. -/
def upStr (s : Str) : Str := s.map upChar

/-- Remove trailing whitespace (the right half of `String.trim`). -/
def trimTrail : Str → Str
  | [] => []
  | c :: cs =>
    let r := trimTrail cs
    if r = [] ∧ isWsChar c then [] else c :: r

/-- JavaScript `s.trim()`. -/
def trimStr (s : Str) : Str := trimTrail (s.dropWhile isWsChar)

/-- JavaScript `s.split(sep)` for a single-character separator: splits at
every occurrence, keeping empty pieces (`"".split` gives `[""]`). -/
def splitOnCharGo (sep : Char) : Str → Str → List Str
  | acc, [] => [acc.reverse]
  | acc, c :: cs =>
    if c = sep then acc.reverse :: splitOnCharGo sep [] cs
    else splitOnCharGo sep (c :: acc) cs

def splitOnChar (sep : Char) (s : Str) : List Str := splitOnCharGo sep [] s

/-- JavaScript `s.includes(pat)` (substring containment). -/
def hasSub (pat : Str) : Str → Bool
  | [] => pat = []
  | c :: cs => pat.isPrefixOf (c :: cs) || hasSub pat cs

/-- Count occurrences of a character, modelling `(s.match(/c/g) || []).length`. -/
def countChar (c : Char) (s : Str) : Nat := s.countP (· == c)

/-! ## Diagnostics (`doValidate`) -/

structure Pos where
  line : Nat
  character : Nat
deriving DecidableEq, Repr

structure Range where
  start : Pos
  endPos : Pos   -- source field name: `end` (a Lean keyword)
deriving DecidableEq, Repr

structure Diagnostic where
  severity : Nat
  range : Range
  message : Str
  source : Str
deriving DecidableEq, Repr

def mkRange (line a b : Nat) : Range := ⟨⟨line, a⟩, ⟨line, b⟩⟩

def validStartKeywords : List Str :=
  [str "INDEX", str "FILTER", str "MAP", str "AS", str "SQL", str "JOIN"]

def kwMsg : Str := str "Line must start with one of: INDEX, FILTER, MAP, AS, SQL, JOIN"
def indexMsg : Str := str "INDEX statement must be followed by an index name"
def filterMsg : Str := str "FILTER must include a comparison operator (>, <, =, !=)"
def mapMsg : Str := str "MAP statement should typically include field paths (using dots) or AS keyword"
def quoteMsg : Str := str "Unmatched quotes in line"
def srcTag : Str := str "Echo Query"

/-- The per-line body of `doValidate` (`lines.forEach((line, lineIndex) => ...)`). -/
def lineDiags (lineIndex : Nat) (line : Str) : List Diagnostic :=
  let trimmedLine := trimStr line
  if trimmedLine = [] ∨ (str "//").isPrefixOf trimmedLine then []
  else
    let firstWord := upStr ((splitOnChar ' ' trimmedLine).headD [])
    (if validStartKeywords.contains firstWord then []
     else [⟨1, mkRange lineIndex 0 firstWord.length, kwMsg, srcTag⟩]) ++
    (if firstWord = str "INDEX" ∧ (splitOnChar ' ' trimmedLine).length < 2 then
       [⟨1, mkRange lineIndex 0 line.length, indexMsg, srcTag⟩]
     else []) ++
    (if firstWord = str "FILTER" ∧
        ¬(trimmedLine.contains '>' || trimmedLine.contains '<' ||
          trimmedLine.contains '=' || hasSub (str "!=") trimmedLine) then
       [⟨1, mkRange lineIndex 0 line.length, filterMsg, srcTag⟩]
     else []) ++
    (if firstWord = str "MAP" ∧ ¬hasSub (str "AS") trimmedLine ∧
        ¬trimmedLine.contains '.' then
       [⟨2, mkRange lineIndex 0 line.length, mapMsg, srcTag⟩]
     else []) ++
    (if countChar '"' trimmedLine % 2 ≠ 0 then
       [⟨1, mkRange lineIndex 0 line.length, quoteMsg, srcTag⟩]
     else [])

/-- `doValidate`: split the document into lines and collect per-line diagnostics. -/
def doValidate (text : Str) : List Diagnostic :=
  ((splitOnChar '\n' text).enum).flatMap fun p => lineDiags p.1 p.2

/-! ## Completion -/

structure CompletionItem where
  label : Str
  kind : Nat
  detail : Str
  documentation : Str
deriving DecidableEq, Repr

/-- `CompletionItemKind.Keyword` in vscode-languageserver-types. -/
def completionKindKeyword : Nat := 14
/-- `CompletionItemKind.Field` in vscode-languageserver-types. -/
def completionKindField : Nat := 5

/-- The static `items` array built inside `completion`. -/
def keywordItems : List CompletionItem :=
  [⟨str "INDEX", completionKindKeyword, str "INDEX statement",
    str "Specify the index to query from"⟩,
   ⟨str "FILTER", completionKindKeyword, str "FILTER operation",
    str "Filter and transform the results"⟩,
   ⟨str "MAP", completionKindKeyword, str "MAP function",
    str "Transform data using a mapping expression"⟩,
   ⟨str "AS", completionKindKeyword, str "AS clause",
    str "Assign an alias to the result set"⟩,
   ⟨str "SQL", completionKindKeyword, str "SQL operation",
    str "Perform SQL operations on the data"⟩,
   ⟨str "JOIN", completionKindKeyword, str "JOIN function",
    str "Join two result sets based on conditions"⟩,
   ⟨str "NOT", completionKindKeyword, str "NOT operator",
    str "Negate a condition"⟩]

/-- The static list of known dotted field paths. -/
def knownFields : List Str :=
  [str "winlog.event_id", str "winlog.event_data.ProcessName",
   str "host.hostname", str "process.executable"]

/-- The `fields` array: `fields.map(field => ({...}))`. -/
def fieldItems : List CompletionItem :=
  knownFields.map fun field =>
    ⟨field, completionKindField, str "Field", str "Field path: " ++ field⟩

structure CompletionList where
  isIncomplete : Bool
  items : List CompletionItem
deriving DecidableEq, Repr

/-- `completion(params)`. The document is the result of
`documents.get(params.textDocument.uri)` (`none` when no document is open
for the URI); `pos` is the request position `(line, character)`. -/
def completion (doc : Option Str) (pos : Nat × Nat) : CompletionList :=
  match doc, pos with
  | none, _ => ⟨false, []⟩
  | some _, _ => ⟨false, keywordItems ++ fieldItems⟩

/-! ## Hover -/

/-- Maximal `\w+` runs of the text as `(start, end)` offset pairs, in order:
the matches of `/\b\w+\b/g` (for `\w+` the boundaries are automatic).
A word character at `p` extends the run starting at `p + 1`, if any. -/
def wordRuns : Str → Nat → List (Nat × Nat)
  | [], _ => []
  | c :: cs, p =>
    if wordChar c then
      match wordRuns cs (p + 1) with
      | (s, e) :: rs => if s = p + 1 then (p, e) :: rs else (p, p + 1) :: (s, e) :: rs
      | [] => [(p, p + 1)]
    else
      wordRuns cs (p + 1)

/-- `getWordAtOffset`: the first `\b\w+\b` match whose span satisfies
`start <= offset && offset <= end` (both bounds inclusive). -/
def getWordAtOffset (text : Str) (offset : Nat) : Option Str :=
  match (wordRuns text 0).find? (fun r => r.1 ≤ offset ∧ offset ≤ r.2) with
  | some r => some ((text.drop r.1).take (r.2 - r.1))
  | none => none

/-- The `switch (word.toUpperCase())` inside `hover`: keyword-specific
contents, `none` when no `case` applies. -/
def kwHoverContents (u : Str) : Option (List Str) :=
  if u = str "INDEX" then
    some [str "INDEX statement", str "Specifies the index to query from"]
  else if u = str "FILTER" then
    some [str "FILTER operation", str "Filters and transforms the result set"]
  else if u = str "MAP" then
    some [str "MAP function", str "Transforms data using a mapping expression"]
  else if u = str "AS" then
    some [str "AS clause", str "Assigns an alias to the result set"]
  else if u = str "SQL" then
    some [str "SQL operation", str "Performs SQL operations on the data"]
  else if u = str "JOIN" then
    some [str "JOIN function", str "Joins two result sets based on conditions"]
  else if u = str "NOT" then
    some [str "NOT operator", str "Negates a condition"]
  else none

/-- The generic fallback contents returned at the end of `hover`. -/
def hoverFallback : List Str := [str "Echo Query Language"]

/-- `hover` for an open document, as a function of the text and the offset
`document.offsetAt(params.position)`.  When the `if (word)` guard fails, or
no `switch` case applies, control reaches the final
`return { contents: ['Echo Query Language'] }`. -/
def hoverText (text : Str) (offset : Nat) : List Str :=
  match getWordAtOffset text offset with
  | some w => (kwHoverContents (upStr w)).getD hoverFallback
  | none => hoverFallback

/-- `hover(params)`: `undefined` (`none`) only when `documents.get` finds no
document for the URI. -/
def hover (doc : Option Str) (offset : Nat) : Option (List Str) :=
  doc.map fun text => hoverText text offset

/-! ## Document symbols

The two scans in `findDocumentSymbols` are global regex matches
(`/\b(INDEX|FILTER|MAP|AS|SQL|JOIN|NOT)\b/gi` and the field-path regex).
They are embedded as an explicit left-to-right scanner: at each position try
the alternatives in order (requiring a word boundary on both sides); on a
match, record the matched substring of the text and continue just past it,
otherwise advance one position. -/

/-- One-character comparison under optional case-insensitivity (`i` flag,
ASCII). -/
def charMatches (ci : Bool) (a c : Char) : Bool :=
  if ci then upChar a == upChar c else a == c

/-- Is the character at absolute position `q` a `\w` character? Out of range
counts as non-word (the regex `\b` at the text edges). -/
def wordAt (text : Str) (q : Nat) : Bool :=
  match text.get? q with
  | some c => wordChar c
  | none => false

/-- `\b`: word-ness differs between positions `q-1` and `q` (with `q = 0`
having no predecessor). -/
def boundaryAt (text : Str) (q : Nat) : Bool :=
  match q with
  | 0 => wordAt text 0
  | Nat.succ q' => wordAt text q' != wordAt text q

/-- Do the characters of `alt` match `text` starting at position `p`? -/
def charsMatchAt (ci : Bool) (alt : Str) (text : Str) (p : Nat) : Bool :=
  match alt with
  | [] => true
  | a :: as =>
    match text.get? p with
    | some c => charMatches ci a c && charsMatchAt ci as text (p + 1)
    | none => false

/-- Full match of one alternative at position `p`, including both `\b`s. -/
def matchesAt (ci : Bool) (alt : Str) (text : Str) (p : Nat) : Bool :=
  charsMatchAt ci alt text p && boundaryAt text p && boundaryAt text (p + alt.length)

/-- First alternative (in regex alternation order) matching at `p`. -/
def firstAltAt (alts : List Str) (ci : Bool) (text : Str) (p : Nat) : Option Str :=
  alts.find? fun a => matchesAt ci a text p

/-- The advancing global-regex scan, returning matched substrings of `text`
(in original case) in order.  `fuel` only serves termination; it is started
at `text.length + 1`, which the scan never exhausts since every alternative
is nonempty. -/
def rxScanGo (alts : List Str) (ci : Bool) (text : Str) : Nat → Nat → List Str
  | 0, _ => []
  | Nat.succ fuel, p =>
    if p < text.length then
      match firstAltAt alts ci text p with
      | some a => ((text.drop p).take a.length) :: rxScanGo alts ci text fuel (p + a.length)
      | none => rxScanGo alts ci text fuel (p + 1)
    else []

/-- `text.match(/.../g)` for an alternation of literal words: list of
matches in order (`[]` for no match). -/
def rxScan (alts : List Str) (ci : Bool) (text : Str) : List Str :=
  rxScanGo alts ci text (text.length + 1) 0

def keywordAlts : List Str :=
  [str "INDEX", str "FILTER", str "MAP", str "AS", str "SQL", str "JOIN", str "NOT"]

/-- `line.indexOf(pat)`: offset of the first occurrence (the uses in
`findDocumentSymbols` always search for a substring that is present; absent
patterns are mapped to 0 rather than JavaScript's -1). -/
def idxOfGo (pat : Str) : Str → Nat → Nat
  | [], _ => 0
  | c :: cs, p => if pat.isPrefixOf (c :: cs) then p else idxOfGo pat cs (p + 1)

def idxOf (pat s : Str) : Nat := idxOfGo pat s 0

/-- SymbolKind value used for keyword matches (`kind: 14, // Keyword`). -/
def symbolKindKeyword : Nat := 14
/-- SymbolKind value used for field matches (`kind: 7, // Variable`). -/
def symbolKindVariable : Nat := 7

structure SymbolInfo where
  name : Str
  kind : Nat
  line : Nat
  startChar : Nat
  endChar : Nat
deriving DecidableEq, Repr

/-- The symbols contributed by one line of the document. -/
def lineSymbols (i : Nat) (line : Str) : List SymbolInfo :=
  ((rxScan keywordAlts true line).map fun keyword =>
    ⟨keyword, symbolKindKeyword, i, idxOf keyword line,
     idxOf keyword line + keyword.length⟩) ++
  ((rxScan knownFields false line).map fun field =>
    ⟨field, symbolKindVariable, i, idxOf field line,
     idxOf field line + field.length⟩)

/-- `findDocumentSymbols(params)`: empty for a missing document, otherwise
the per-line keyword and field-path occurrences. -/
def findDocumentSymbols (doc : Option Str) : List SymbolInfo :=
  match doc with
  | none => []
  | some text =>
    ((splitOnChar '\n' text).enum).flatMap fun p => lineSymbols p.1 p.2

/-! ## Formatter

`format` maps each line of the requested range through three regex
replaces and a trim.  The keyword-uppercasing replace
`/\b(INDEX|FILTER|MAP|AS|SQL|JOIN|NOT)\b/gi` is embedded through a lexer
into maximal `\w+` runs: a match of the regex is exactly a maximal word run
whose uppercasing is one of the alternatives (the `\b`s forbid adjacent
word characters, and every alternative consists of word characters only). -/

inductive Tok where
  | word (w : Str)
  | sym (c : Char)
deriving DecidableEq, Repr

/-- Split a string into maximal word runs and single non-word characters.
A word character is prepended to the following word run, if any. -/
def lex : Str → List Tok
  | [] => []
  | c :: cs =>
    if wordChar c then
      match lex cs with
      | Tok.word w :: ts => Tok.word (c :: w) :: ts
      | ts => Tok.word [c] :: ts
    else
      Tok.sym c :: lex cs

def unlex (ts : List Tok) : Str :=
  ts.flatMap fun t =>
    match t with
    | Tok.word w => w
    | Tok.sym c => [c]

/-- Replacement applied to each keyword match: `match => match.toUpperCase()`,
skipping word runs that are not keywords. -/
def kwUpper (w : Str) : Str :=
  if upStr w ∈ keywordAlts then upStr w else w

def upTok : Tok → Tok
  | Tok.word w => Tok.word (kwUpper w)
  | Tok.sym c => Tok.sym c

/-- `line.replace(/\b(INDEX|FILTER|MAP|AS|SQL|JOIN|NOT)\b/gi, m => m.toUpperCase())`. -/
def upperKw (s : Str) : Str := unlex ((lex s).map upTok)

/-- The characters of `([,(){}])`. -/
def punctChar (c : Char) : Bool :=
  c == ',' || c == '(' || c == ')' || c == '{' || c == '}'

/-- `.replace(/([,(){}])/g, '$1 ')`: a space after every such character. -/
def spaceAfter (s : Str) : Str :=
  s.flatMap fun c => if punctChar c then [c, ' '] else [c]

/-- `.replace(/\s+/g, ' ')`: each maximal whitespace run becomes one space. -/
def collapseGo : Bool → Str → Str
  | _, [] => []
  | inWs, c :: cs =>
    if isWsChar c then
      if inWs then collapseGo true cs else ' ' :: collapseGo true cs
    else c :: collapseGo false cs

def collapseWs (s : Str) : Str := collapseGo false s

/-- The per-line formatting chain of `format`. -/
def fmtLine (line : Str) : Str :=
  trimStr (collapseWs (spaceAfter (upperKw line)))

/-- `formattedLines.join('\n')`. -/
def joinNL : List Str → Str
  | [] => []
  | [l] => l
  | l :: ls => l ++ '\n' :: joinNL ls

/-- The `newText` of the single `TextEdit` that `format` returns for the
text of the requested range. -/
def formatText (text : Str) : Str :=
  joinNL ((splitOnChar '\n' text).map fmtLine)

/-- `format(params)`: no edits for a missing document, otherwise one
full-range replacement edit whose new text is `formatText`. -/
def format (doc : Option Str) : List Str :=
  match doc with
  | none => []
  | some text => [formatText text]

/-! ## Debounced validation (`validate` / `pendingValidationRequests`)

The timer discipline of the server is embedded as a state machine.  The
state carries `pendingValidationRequests` (each entry records the URI, the
scheduled firing time `deadline = now + 500`, and the text snapshot the
timer closed over) and the log of validation passes that have run
(`doValidate` executions, in order; each publishes one diagnostic set).
A change event at time `t` first lets every timer whose deadline has been
reached fire, then runs `validate`: cancel-and-remove any pending timer for
the URI, then schedule a new one. -/

abbrev Uri := Str

structure PendingTimer where
  uri : Uri
  deadline : Nat
  text : Str
deriving DecidableEq, Repr

structure ServerState where
  pending : List PendingTimer
  validated : List (Uri × Str)
deriving DecidableEq, Repr

def initState : ServerState := ⟨[], []⟩

/-- `cleanPendingValidation`: `clearTimeout` + `delete` for the URI. -/
def cleanPendingValidation (u : Uri) (st : ServerState) : ServerState :=
  { st with pending := st.pending.filter fun t => t.uri ≠ u }

/-- Timers whose deadline has been reached fire: each runs `doValidate` on
its text snapshot (logged in order) and removes itself from the map. -/
def fireDue (now : Nat) (st : ServerState) : ServerState :=
  { pending := st.pending.filter fun t => now < t.deadline
    validated := st.validated ++
      ((st.pending.filter fun t => t.deadline ≤ now).map fun t => (t.uri, t.text)) }

/-- `validate(textDocument)`: cancel any pending timer for the URI, then
`setTimeout(..., 500)` a new validation of the current text. -/
def validateSchedule (now : Nat) (u : Uri) (x : Str) (st : ServerState) : ServerState :=
  let st' := cleanPendingValidation u st
  { st' with pending := st'.pending ++ [⟨u, now + 500, x⟩] }

/-- One document-change notification at time `ev.1` for URI `ev.2.1` with
full new text `ev.2.2`. -/
def handleChange (st : ServerState) (ev : Nat × Uri × Str) : ServerState :=
  validateSchedule ev.1 ev.2.1 ev.2.2 (fireDue ev.1 st)

def runEvents (evs : List (Nat × Uri × Str)) : ServerState :=
  evs.foldl handleChange initState

/-- Let every remaining timer fire (time passes with no further edits). -/
def flushAll (st : ServerState) : ServerState :=
  { pending := [], validated := st.validated ++ st.pending.map fun t => (t.uri, t.text) }

/-- The diagnostic sets published, in order: one `publishDiagnostics`
notification per validation pass. -/
def publishedLog (st : ServerState) : List (Uri × List Diagnostic) :=
  st.validated.map fun p => (p.1, doValidate p.2)

/-! ## Claim-side definitions

These definitions follow the wording of the specification, to be compared
with the embeddings above. -/

/-- The first whitespace-delimited token of a string (the specification's
"statement keyword" reads the first whitespace-delimited token of the
trimmed line). -/
def wsFirstTok (s : Str) : Str :=
  (s.dropWhile isWsChar).takeWhile fun c => !isWsChar c

/-- Spec-side occurrence semantics: a symbol occurrence is any position of
the line where some alternative matches with word boundaries on both sides;
the matched substring is recorded.  (The implementation instead scans
left-to-right, jumping past each match.) -/
def rxAll (alts : List Str) (ci : Bool) (text : Str) : List Str :=
  (List.range text.length).filterMap fun p =>
    (firstAltAt alts ci text p).map fun a => (text.drop p).take a.length

/-- Spec-side per-line symbols: one entry per textual occurrence, span from
the first occurrence of the matched text (`indexOf`), keywords tagged with
the Keyword kind and fields with the Variable kind. -/
def lineSymbolsSpec (i : Nat) (line : Str) : List SymbolInfo :=
  ((rxAll keywordAlts true line).map fun keyword =>
    ⟨keyword, symbolKindKeyword, i, idxOf keyword line,
     idxOf keyword line + keyword.length⟩) ++
  ((rxAll knownFields false line).map fun field =>
    ⟨field, symbolKindVariable, i, idxOf field line,
     idxOf field line + field.length⟩)

/-- Spec-side document symbols. -/
def symbolsSpec (doc : Option Str) : List SymbolInfo :=
  match doc with
  | none => []
  | some text =>
    ((splitOnChar '\n' text).enum).flatMap fun p => lineSymbolsSpec p.1 p.2

/-- Side condition on an alternation, checked by evaluation: no alternative
can start (with a word boundary) strictly inside a match of another
alternative.  For every alternative `a` and every interior offset, either
the previous character of `a` is a word character (so `\b` fails there), or
no alternative agrees with the corresponding suffix of `a` on their
overlap. -/
def noInnerStart (alts : List Str) : Bool :=
  alts.all fun a =>
    (List.range' 1 (a.length - 1)).all fun off =>
      wordChar (a.getD (off - 1) ' ') ||
      alts.all fun b =>
        !(b.isPrefixOf (a.drop off) || (a.drop off).isPrefixOf b)

/-! ## Token-level apparatus for the formatter proofs

The formatter chain is analysed through the lexed token stream: each
per-line replace is mirrored by a transformation of well-formed token
lists, and the canonical shape of formatted output is characterised by
recursive predicates on characters. -/

/-- Is the head of a token list not a word token? -/
def noWordHead : List Tok → Bool
  | Tok.word _ :: _ => false
  | _ => true

/-- Well-formed token streams: word tokens are nonempty strings of word
characters and never adjacent, symbol tokens are single non-word
characters.  `lex` produces exactly such streams. -/
def toksWF : List Tok → Bool
  | [] => true
  | Tok.word w :: ts => !w.isEmpty && w.all wordChar && noWordHead ts && toksWF ts
  | Tok.sym c :: ts => !wordChar c && toksWF ts

/-- Token-level mirror of the punctuation-spacing replace. -/
def bTok : Tok → List Tok
  | Tok.word w => [Tok.word w]
  | Tok.sym c => if punctChar c then [Tok.sym c, Tok.sym ' '] else [Tok.sym c]

/-- Token-level mirror of whitespace collapsing. -/
def cTokGo : Bool → List Tok → List Tok
  | _, [] => []
  | _, Tok.word w :: ts => Tok.word w :: cTokGo false ts
  | f, Tok.sym c :: ts =>
    if isWsChar c then
      if f then cTokGo true ts else Tok.sym ' ' :: cTokGo true ts
    else Tok.sym c :: cTokGo false ts

/-- Token-level mirror of dropping leading whitespace. -/
def dropWsT : List Tok → List Tok
  | Tok.sym c :: ts => if isWsChar c then dropWsT ts else Tok.sym c :: ts
  | ts => ts

/-- Token-level mirror of dropping trailing whitespace. -/
def isWsSym : Tok → Bool
  | Tok.sym c => isWsChar c
  | _ => false

def trimTrailT : List Tok → List Tok
  | [] => []
  | t :: ts =>
    let r := trimTrailT ts
    if r.isEmpty && isWsSym t then [] else t :: r

/-- Is the head character absent or not whitespace? -/
def headNonWs : Str → Bool
  | [] => true
  | c :: _ => !isWsChar c

/-- Is the last character a punctuation character (`,` `(` `)` `{` `}`)? -/
def lastIsPunct : Str → Bool
  | [] => false
  | [c] => punctChar c
  | _ :: c :: cs => lastIsPunct (c :: cs)

/-- Canonical shape of a formatted line: every whitespace character is a
single space followed by a non-space, every punctuation character is
followed by a space or ends the line, and the line does not end in
whitespace. -/
def canonS : Str → Bool
  | [] => true
  | [c] => !isWsChar c
  | c :: d :: rest =>
    (if isWsChar c then c == ' ' && !isWsChar d
     else if punctChar c then d == ' '
     else true) && canonS (d :: rest)

/-- Shape of `collapseWs (spaceAfter s)` before trimming: like `canonS` but
the line may end in a single space and never ends in punctuation. -/
def midOk : Str → Bool
  | [] => true
  | [c] => (!isWsChar c || c == ' ') && !punctChar c
  | c :: d :: rest =>
    (if isWsChar c then c == ' ' && !isWsChar d
     else if punctChar c then d == ' '
     else true) && midOk (d :: rest)

end EchoQuery

namespace EchoQuery

/-! ## Helper lemmas -/

theorem ws_ne_quote (c : Char) (h : isWsChar c = true) : (c == '"') = false := by
  by_cases hq : c = '"'
  · subst hq; exact absurd h (by decide)
  · simp [hq]

theorem countP_quote_dropWhile (s : Str) :
    (s.dropWhile isWsChar).countP (· == '"') = s.countP (· == '"') := by
  induction s with
  | nil => rfl
  | cons c cs ih =>
    by_cases h : isWsChar c
    · simp [List.dropWhile_cons, h, ih, List.countP_cons, ws_ne_quote c h]
    · simp [List.dropWhile_cons, h]

theorem countP_quote_trimTrail (s : Str) :
    (trimTrail s).countP (· == '"') = s.countP (· == '"') := by
  induction s with
  | nil => rfl
  | cons c cs ih =>
    simp only [trimTrail]
    split
    · next hc =>
      have : cs.countP (· == '"') = 0 := by rw [← ih, hc.1]; rfl
      simp [List.countP_cons, ws_ne_quote c hc.2, this]
    · simp [List.countP_cons, ih]

theorem countChar_quote_trim (s : Str) : countChar '"' (trimStr s) = countChar '"' s := by
  unfold countChar trimStr
  rw [countP_quote_trimTrail, countP_quote_dropWhile]

theorem lineDiags_skip (i : Nat) (line : Str)
    (h : trimStr line = [] ∨ (str "//").isPrefixOf (trimStr line) = true) :
    lineDiags i line = [] := by
  unfold lineDiags
  rw [if_pos]
  exact h

/-! ## Claim theorems -/

/-- C9: for every text consisting only of blank lines and comment lines
(lines whose trimmed form starts with `//`), `validate` returns an empty
diagnostic list. -/
theorem validate_blank_comment_empty (text : Str)
    (h : ∀ l ∈ splitOnChar '\n' text,
      trimStr l = [] ∨ (str "//").isPrefixOf (trimStr l) = true) :
    doValidate text = [] := by
  unfold doValidate
  rw [List.flatMap_eq_nil_iff]
  intro p hp
  have hl : p.2 ∈ splitOnChar '\n' text := by
    have := List.mem_enum_iff_getElem?.mp hp
    exact List.getElem?_mem this
  exact lineDiags_skip p.1 p.2 (h p.2 hl)

/-- Witness for C9 at a concrete text of blank and comment lines. -/
theorem validate_blank_comment_empty_witness :
    doValidate (str "// header\n\n   \n\t// note ") = [] :=
  validate_blank_comment_empty _ (by decide)

/-- C5: a non-blank, non-comment line with an odd number of quote
characters always yields the unmatched-quote Error spanning the whole line,
whatever the keyword and the other rules do; the rules are additive, so
`BADKEY "unterminated` yields exactly the unknown-keyword Error followed by
the unmatched-quote Error. -/
theorem unmatched_quote_rule (i : Nat) (line : Str)
    (h1 : ¬(trimStr line = [] ∨ (str "//").isPrefixOf (trimStr line) = true))
    (h3 : countChar '"' line % 2 = 1) :
    (⟨1, mkRange i 0 line.length, quoteMsg, srcTag⟩ : Diagnostic) ∈ lineDiags i line ∧
    doValidate (str "BADKEY \"unterminated") =
      [⟨1, mkRange 0 0 6, kwMsg, srcTag⟩, ⟨1, mkRange 0 0 20, quoteMsg, srcTag⟩] := by
  refine ⟨?_, by decide⟩
  unfold lineDiags
  rw [if_neg h1]
  have hq : countChar '"' (trimStr line) % 2 ≠ 0 := by
    rw [countChar_quote_trim, h3]; decide
  simp only [List.mem_append]
  right
  simp [hq]

/-- Witness for C5 at a concrete line. -/
theorem unmatched_quote_rule_witness :
    (⟨1, mkRange 3 0 8, quoteMsg, srcTag⟩ : Diagnostic) ∈ lineDiags 3 (str "MAP \"x.y") :=
  (unmatched_quote_rule 3 (str "MAP \"x.y") (by decide) (by decide)).1

/-- C4 counterexample: on `INDEX\tusers` the first whitespace-delimited
token is `INDEX`, one of the six keywords, yet the validator (which splits
the trimmed line on the space character only) emits the unknown-keyword
Error, with the 11-character token `INDEX\TUSERS` as the offending token. -/
theorem keyword_rule_counterexample :
    wsFirstTok (str "INDEX\tusers") = str "INDEX" ∧
    upStr (str "INDEX") ∈ validStartKeywords ∧
    doValidate (str "INDEX\tusers") = [⟨1, mkRange 0 0 11, kwMsg, srcTag⟩] := by
  decide

/-- C4 (amended): the statement keyword is the first SPACE-delimited chunk
of the trimmed line, uppercased.  If it is not one of the six keywords the
line gets exactly one diagnostic with the unknown-keyword message — an
Error spanning columns 0 to the length of that chunk — and if it is one of
the six, no such diagnostic is emitted. -/
theorem keyword_rule (i : Nat) (line : Str)
    (h1 : ¬(trimStr line = [] ∨ (str "//").isPrefixOf (trimStr line) = true)) :
    (upStr ((splitOnChar ' ' (trimStr line)).headD []) ∉ validStartKeywords →
      (lineDiags i line).filter (fun d => d.message == kwMsg) =
        [⟨1, mkRange i 0 (upStr ((splitOnChar ' ' (trimStr line)).headD [])).length,
          kwMsg, srcTag⟩]) ∧
    (upStr ((splitOnChar ' ' (trimStr line)).headD []) ∈ validStartKeywords →
      (lineDiags i line).filter (fun d => d.message == kwMsg) = []) := by
  unfold lineDiags
  rw [if_neg h1]
  constructor
  · intro hmem
    have hc : validStartKeywords.contains
        (upStr ((splitOnChar ' ' (trimStr line)).headD [])) = false := by simpa using hmem
    simp only [List.filter_append, hc, Bool.false_eq_true, if_false]
    rw [List.filter_cons_of_pos (by rfl), List.filter_nil]
    have hrest : ∀ msg : Str,
        msg = indexMsg ∨ msg = filterMsg ∨ msg = mapMsg ∨ msg = quoteMsg →
        (msg == kwMsg) = false := by
      intro msg h
      rcases h with h | h | h | h <;> subst h <;> decide
    split <;> split <;> split <;> split <;>
      simp [List.filter_cons, hrest _ (Or.inl rfl), hrest _ (Or.inr (Or.inl rfl)),
        hrest _ (Or.inr (Or.inr (Or.inl rfl))), hrest _ (Or.inr (Or.inr (Or.inr rfl)))]
  · intro hmem
    have hc : validStartKeywords.contains
        (upStr ((splitOnChar ' ' (trimStr line)).headD [])) = true := by simpa using hmem
    simp only [List.filter_append, hc, if_true, List.filter_nil]
    have hrest : ∀ msg : Str,
        msg = indexMsg ∨ msg = filterMsg ∨ msg = mapMsg ∨ msg = quoteMsg →
        (msg == kwMsg) = false := by
      intro msg h
      rcases h with h | h | h | h <;> subst h <;> decide
    split <;> split <;> split <;> split <;>
      simp [List.filter_cons, hrest _ (Or.inl rfl), hrest _ (Or.inr (Or.inl rfl)),
        hrest _ (Or.inr (Or.inr (Or.inl rfl))), hrest _ (Or.inr (Or.inr (Or.inr rfl)))]

/-- Witness for C4 at concrete lines (a bad keyword and a good one). -/
theorem keyword_rule_witness :
    (lineDiags 0 (str "BADKEY x")).filter (fun d => d.message == kwMsg) =
      [⟨1, mkRange 0 0 6, kwMsg, srcTag⟩] ∧
    (lineDiags 0 (str "join a b")).filter (fun d => d.message == kwMsg) = [] :=
  ⟨(keyword_rule 0 (str "BADKEY x") (by decide)).1 (by decide),
   (keyword_rule 0 (str "join a b") (by decide)).2 (by decide)⟩

/-- C6 counterexample: on the line ` index` (leading space) the arity Error
spans columns 0 to 6 — the RAW line length — not the trimmed line's length
5; the claimed "whole trimmed line" span is wrong, and there is no width-5
fallback in this code path. -/
theorem index_arity_counterexample :
    trimStr (str " index") = str "index" ∧
    (str "index").length = 5 ∧
    doValidate (str " index") = [⟨1, mkRange 0 0 6, indexMsg, srcTag⟩] := by
  decide

theorem lineDiags_filter_indexMsg (i : Nat) (line : Str)
    (h1 : ¬(trimStr line = [] ∨ (str "//").isPrefixOf (trimStr line) = true)) :
    (lineDiags i line).filter (fun d => d.message == indexMsg) =
      if upStr ((splitOnChar ' ' (trimStr line)).headD []) = str "INDEX" ∧
         (splitOnChar ' ' (trimStr line)).length < 2
      then [⟨1, mkRange i 0 line.length, indexMsg, srcTag⟩] else [] := by
  unfold lineDiags
  rw [if_neg h1]
  simp only [List.filter_append]
  split <;> split <;> split <;> split <;> split <;> rfl

/-- C6 (amended): when the statement keyword is INDEX and the trimmed line
splits into fewer than 2 pieces on the space character (no index-name
argument), exactly one arity Error is emitted, spanning columns 0 to the
raw line's length; with an argument (`INDEX usersonly`) no arity
diagnostic is emitted. -/
theorem index_arity_rule (i : Nat) (line : Str)
    (h1 : ¬(trimStr line = [] ∨ (str "//").isPrefixOf (trimStr line) = true))
    (hk : upStr ((splitOnChar ' ' (trimStr line)).headD []) = str "INDEX") :
    ((splitOnChar ' ' (trimStr line)).length < 2 →
      (lineDiags i line).filter (fun d => d.message == indexMsg) =
        [⟨1, mkRange i 0 line.length, indexMsg, srcTag⟩]) ∧
    (¬(splitOnChar ' ' (trimStr line)).length < 2 →
      (lineDiags i line).filter (fun d => d.message == indexMsg) = []) ∧
    doValidate (str "INDEX usersonly") = [] := by
  refine ⟨?_, ?_, by decide⟩ <;> intro hlen
  · rw [lineDiags_filter_indexMsg i line h1, if_pos ⟨hk, hlen⟩]
  · rw [lineDiags_filter_indexMsg i line h1, if_neg (fun hh : _ ∧ _ => hlen hh.2)]

/-- Witness for C6 at concrete lines. -/
theorem index_arity_rule_witness :
    (lineDiags 0 (str "INDEX")).filter (fun d => d.message == indexMsg) =
      [⟨1, mkRange 0 0 5, indexMsg, srcTag⟩] ∧
    (lineDiags 0 (str "INDEX users")).filter (fun d => d.message == indexMsg) = [] :=
  ⟨(index_arity_rule 0 (str "INDEX") (by decide) (by decide)).1 (by decide),
   (index_arity_rule 0 (str "INDEX users") (by decide) (by decide)).2.1 (by decide)⟩

/-- Per-line well-formedness of every emitted diagnostic (for C10). -/
theorem lineDiags_wf (i : Nat) (line : Str) (d : Diagnostic)
    (hd : d ∈ lineDiags i line) :
    d.range.start.line = i ∧ d.range.endPos.line = i ∧
    d.range.start.character = 0 ∧
    d.range.start.character ≤ d.range.endPos.character ∧
    d.source = srcTag ∧ (d.severity = 1 ∨ d.severity = 2) ∧
    (d.severity = 2 ↔ d.message = mapMsg) := by
  unfold lineDiags at hd
  by_cases h0 : trimStr line = [] ∨ (str "//").isPrefixOf (trimStr line) = true
  · rw [if_pos h0] at hd; cases hd
  · rw [if_neg h0] at hd
    simp only [List.mem_append] at hd
    rcases hd with ((((hd | hd) | hd) | hd) | hd) <;>
      split at hd <;>
      first
      | exact absurd hd (List.not_mem_nil _)
      | (rw [List.mem_singleton] at hd; subst hd;
         refine ⟨rfl, rfl, rfl, Nat.zero_le _, rfl, ?_, ?_⟩
         · first | exact Or.inl rfl | exact Or.inr rfl
         · first
           | exact (show ((1:Nat) = 2) ↔ (kwMsg = mapMsg) by decide)
           | exact (show ((1:Nat) = 2) ↔ (indexMsg = mapMsg) by decide)
           | exact (show ((1:Nat) = 2) ↔ (filterMsg = mapMsg) by decide)
           | exact (show ((1:Nat) = 2) ↔ (quoteMsg = mapMsg) by decide)
           | exact (show ((2:Nat) = 2) ↔ (mapMsg = mapMsg) by decide))

/-- C10: every diagnostic `validate` emits is well-formed the same way:
start line = end line = the index of the offending line, start character 0,
start ≤ end, source `Echo Query`, severity Error (1) except the MAP-shape
rule, the only rule emitting Warning (2). -/
theorem validate_diagnostics_wellformed (text : Str) (d : Diagnostic)
    (hd : d ∈ doValidate text) :
    d.range.endPos.line = d.range.start.line ∧
    d.range.start.line < (splitOnChar '\n' text).length ∧
    d ∈ lineDiags d.range.start.line
      ((splitOnChar '\n' text).getD d.range.start.line []) ∧
    d.range.start.character = 0 ∧
    d.range.start.character ≤ d.range.endPos.character ∧
    d.source = srcTag ∧ (d.severity = 1 ∨ d.severity = 2) ∧
    (d.severity = 2 ↔ d.message = mapMsg) := by
  unfold doValidate at hd
  rw [List.mem_flatMap] at hd
  obtain ⟨p, hp, hmem⟩ := hd
  have hget : (splitOnChar '\n' text)[p.1]? = some p.2 :=
    List.mem_enum_iff_getElem?.mp hp
  have hwf := lineDiags_wf p.1 p.2 d hmem
  have hline : d.range.start.line = p.1 := hwf.1
  have hlt : p.1 < (splitOnChar '\n' text).length :=
    (List.getElem?_eq_some.mp hget).1
  refine ⟨hwf.2.1.trans hline.symm, ?_, ?_, hwf.2.2.1, hwf.2.2.2.1,
    hwf.2.2.2.2.1, hwf.2.2.2.2.2.1, hwf.2.2.2.2.2.2⟩
  · rw [hline]; exact hlt
  · rw [hline, List.getD_eq_getElem?_getD, hget]
    exact hmem

/-- Witness for C10 at a concrete text and diagnostic. -/
theorem validate_diagnostics_wellformed_witness :
    (⟨2, mkRange 0 0 5, mapMsg, srcTag⟩ : Diagnostic) ∈ doValidate (str "MAP x") ∧
    ((⟨2, mkRange 0 0 5, mapMsg, srcTag⟩ : Diagnostic).severity = 1 ∨
     (⟨2, mkRange 0 0 5, mapMsg, srcTag⟩ : Diagnostic).severity = 2) :=
  ⟨by decide,
   (validate_diagnostics_wellformed (str "MAP x") _ (by decide)).2.2.2.2.2.2.1⟩

/-- C7: completion always returns the full static list — the 7 keyword
items followed by the 4 field-path items, 11 items, `isIncomplete = false`
— independent of the document text and the cursor position; for a URI with
no open document it returns an empty item list. -/
theorem completion_static (doc doc' : Str) (pos pos' : Nat × Nat) :
    completion (some doc) pos = ⟨false, keywordItems ++ fieldItems⟩ ∧
    (completion (some doc) pos).items.length = 11 ∧
    (completion (some doc) pos).isIncomplete = false ∧
    (completion (some doc) pos).items.take 7 = keywordItems ∧
    (completion (some doc) pos).items.drop 7 = fieldItems ∧
    completion (some doc) pos = completion (some doc') pos' ∧
    completion none pos = ⟨false, []⟩ :=
  ⟨rfl, by rfl, rfl, by rfl, by rfl, rfl, rfl⟩

/-- C2 counterexample: hovering between the tokens of `INDEX  users`
(offset 6, inside the double space) finds no enclosing word, yet `hover`
returns the generic `Echo Query Language` fallback rather than the absent
no-hover result. -/
theorem hover_no_word_counterexample :
    getWordAtOffset (str "INDEX  users") 6 = none ∧
    hover (some (str "INDEX  users")) 6 = some hoverFallback := by
  decide

/-- C2 (amended): for an open document, hover at a position with no
enclosing word returns the generic fallback (the absent result occurs only
when no document is open for the URI); a word whose uppercase form is one
of the 7 keywords returns that keyword's specific content; a found but
unrecognized word returns the generic fallback.  Hover on `FILTER` in any
letter case gives the FILTER-specific content. -/
theorem hover_cases (text : Str) (offset : Nat) :
    (getWordAtOffset text offset = none →
      hover (some text) offset = some hoverFallback) ∧
    (∀ w c, getWordAtOffset text offset = some w →
      kwHoverContents (upStr w) = some c →
      hover (some text) offset = some c) ∧
    (∀ w, getWordAtOffset text offset = some w →
      kwHoverContents (upStr w) = none →
      hover (some text) offset = some hoverFallback) ∧
    hover none offset = none ∧
    hover (some (str "a fIlTeR b")) 3 =
      some [str "FILTER operation", str "Filters and transforms the result set"] := by
  refine ⟨?_, ?_, ?_, rfl, by decide⟩
  · intro h
    simp [hover, hoverText, h]
  · intro w c hw hc
    simp [hover, hoverText, hw, hc]
  · intro w hw hc
    simp [hover, hoverText, hw, hc]

/-- Witness for C2 at concrete inputs for each branch. -/
theorem hover_cases_witness :
    hover (some (str " ")) 0 = some hoverFallback ∧
    hover (some (str "sql x")) 1 =
      some [str "SQL operation", str "Performs SQL operations on the data"] ∧
    hover (some (str "zz")) 0 = some hoverFallback :=
  ⟨(hover_cases (str " ") 0).1 (by decide),
   (hover_cases (str "sql x") 1).2.1 (str "sql")
     [str "SQL operation", str "Performs SQL operations on the data"]
     (by decide) (by decide),
   (hover_cases (str "zz") 0).2.2.1 (str "zz") (by decide) (by decide)⟩

theorem countP_filter_le {α : Type} (l : List α) (p q : α → Bool) :
    (l.filter q).countP p ≤ l.countP p := by
  induction l with
  | nil => simp
  | cons a as ih =>
    simp only [List.filter_cons, List.countP_cons]
    split
    · simp only [List.countP_cons]
      omega
    · omega

/-- C1: two change notifications for the same URI within the 500 ms
debounce window result in exactly one validation pass, over the second
(latest) text, and exactly one published diagnostic set; and after any
sequence of change events, at most one pending validation timer exists per
URI, because scheduling first cancels and removes any previously scheduled
timer for that URI. -/
theorem debounce_single_validation (u : Uri) (x₁ x₂ : Str) (t₁ t₂ : Nat)
    (_h₁ : t₁ ≤ t₂) (h₂ : t₂ < t₁ + 500) :
    (flushAll (runEvents [(t₁, u, x₁), (t₂, u, x₂)])).validated = [(u, x₂)] ∧
    publishedLog (flushAll (runEvents [(t₁, u, x₁), (t₂, u, x₂)])) =
      [(u, doValidate x₂)] ∧
    ∀ (evs : List (Nat × Uri × Str)) (v : Uri),
      ((runEvents evs).pending.countP fun t => t.uri == v) ≤ 1 := by
  have hnle : ¬(t₁ + 500 ≤ t₂) := Nat.not_le.mpr h₂
  refine ⟨?_, ?_, ?_⟩
  · simp [runEvents, handleChange, validateSchedule, fireDue,
      cleanPendingValidation, initState, flushAll, h₂, hnle]
  · simp [runEvents, handleChange, validateSchedule, fireDue,
      cleanPendingValidation, initState, flushAll, publishedLog, h₂, hnle]
  · intro evs v
    suffices h : ∀ (es : List (Nat × Uri × Str)) (st : ServerState),
        (st.pending.countP fun t => t.uri == v) ≤ 1 →
        (((es.foldl handleChange st).pending.countP fun t => t.uri == v)) ≤ 1 by
      exact h evs initState (by simp [initState])
    intro es
    induction es with
    | nil => intro st h; simpa using h
    | cons e es ih =>
      intro st h
      simp only [List.foldl_cons]
      apply ih
      show (((validateSchedule e.1 e.2.1 e.2.2 (fireDue e.1 st)).pending).countP
        fun t => t.uri == v) ≤ 1
      simp only [validateSchedule, cleanPendingValidation, fireDue,
        List.countP_append]
      by_cases hv : e.2.1 = v
      · subst hv
        have hzero : ((((st.pending.filter fun t => decide (e.1 < t.deadline)).filter
            fun t => t.uri ≠ e.2.1).countP fun t => t.uri == e.2.1)) = 0 := by
          rw [List.countP_eq_zero]
          intro a ha
          have := List.of_mem_filter ha
          simpa using this
        have hone : (([⟨e.2.1, e.1 + 500, e.2.2⟩] : List PendingTimer).countP
            fun t => t.uri == e.2.1) = 1 := by
          simp [List.countP_cons]
        rw [hzero, hone]
      · have hone : (([⟨e.2.1, e.1 + 500, e.2.2⟩] : List PendingTimer).countP
            fun t => t.uri == v) = 0 := by
          simp [List.countP_cons, hv]
        rw [hone]
        have hle1 : (((st.pending.filter fun t => decide (e.1 < t.deadline)).filter
            fun t => t.uri ≠ e.2.1).countP fun t => t.uri == v) ≤
            ((st.pending.filter fun t => decide (e.1 < t.deadline)).countP
              fun t => t.uri == v) := countP_filter_le _ _ _
        have hle2 : ((st.pending.filter fun t => decide (e.1 < t.deadline)).countP
            fun t => t.uri == v) ≤ (st.pending.countP fun t => t.uri == v) :=
          countP_filter_le _ _ _
        omega

/-- Witness for C1 at concrete events (two edits 100 ms apart). -/
theorem debounce_single_validation_witness :
    (flushAll (runEvents [(0, str "file:///q.echo", str "index"),
                          (100, str "file:///q.echo", str "INDEX users")])).validated =
      [(str "file:///q.echo", str "INDEX users")] :=
  (debounce_single_validation (str "file:///q.echo") (str "index")
    (str "INDEX users") 0 100 (by decide) (by decide)).1

/-! ## Character arithmetic for the regex scans -/

theorem char_eq_iff_toNat (c d : Char) : c = d ↔ c.toNat = d.toNat := by
  constructor
  · intro h; rw [h]
  · intro h
    have := congrArg Char.ofNat h
    rwa [Char.ofNat_toNat, Char.ofNat_toNat] at this

theorem wordChar_iff (c : Char) : wordChar c = true ↔
    (65 ≤ c.toNat ∧ c.toNat ≤ 90) ∨ (97 ≤ c.toNat ∧ c.toNat ≤ 122) ∨
    (48 ≤ c.toNat ∧ c.toNat ≤ 57) ∨ c.toNat = 95 := by
  unfold wordChar Char.isAlpha Char.isUpper Char.isLower Char.isDigit
  simp only [Bool.or_eq_true, Bool.and_eq_true, decide_eq_true_eq, beq_iff_eq, ge_iff_le]
  constructor
  · rintro (((⟨h1, h2⟩ | ⟨h1, h2⟩) | ⟨h1, h2⟩) | h)
    · exact Or.inl ⟨h1, h2⟩
    · exact Or.inr (Or.inl ⟨h1, h2⟩)
    · exact Or.inr (Or.inr (Or.inl ⟨h1, h2⟩))
    · subst h; exact Or.inr (Or.inr (Or.inr rfl))
  · rintro (⟨h1, h2⟩ | ⟨h1, h2⟩ | ⟨h1, h2⟩ | h)
    · exact Or.inl (Or.inl (Or.inl ⟨h1, h2⟩))
    · exact Or.inl (Or.inl (Or.inr ⟨h1, h2⟩))
    · exact Or.inl (Or.inr ⟨h1, h2⟩)
    · exact Or.inr ((char_eq_iff_toNat c '_').mpr h)

theorem lower_iff (c : Char) : ('a' ≤ c ∧ c ≤ 'z') ↔ (97 ≤ c.toNat ∧ c.toNat ≤ 122) :=
  Iff.rfl

theorem toNat_upChar (c : Char) :
    (upChar c).toNat = if 97 ≤ c.toNat ∧ c.toNat ≤ 122 then c.toNat - 32 else c.toNat := by
  unfold upChar
  by_cases h : 'a' ≤ c ∧ c ≤ 'z'
  · rw [if_pos h, if_pos ((lower_iff c).mp h)]
    unfold Char.ofNat
    rw [dif_pos]
    · rfl
    · have := (lower_iff c).mp h
      constructor
      omega
  · rw [if_neg h, if_neg (fun hh => h ((lower_iff c).mpr hh))]

/-- Under one-character matching (case-sensitive or not), pattern and text
characters are word characters together. -/
theorem charMatches_wordChar_eq (ci : Bool) (a c : Char)
    (h : charMatches ci a c = true) : wordChar a = wordChar c := by
  cases ci with
  | false =>
    have hac : a = c := by simpa [charMatches] using h
    rw [hac]
  | true =>
    have hup : upChar a = upChar c := by simpa [charMatches] using h
    have ht : (upChar a).toNat = (upChar c).toNat := by rw [hup]
    rw [toNat_upChar, toNat_upChar] at ht
    have hA := wordChar_iff a
    have hC := wordChar_iff c
    cases wa : wordChar a <;> cases wc : wordChar c
    · rfl
    · exfalso
      rw [wa] at hA; rw [wc] at hC
      have hc' := hC.mp rfl
      have ha' : ¬((65 ≤ a.toNat ∧ a.toNat ≤ 90) ∨ (97 ≤ a.toNat ∧ a.toNat ≤ 122) ∨
          (48 ≤ a.toNat ∧ a.toNat ≤ 57) ∨ a.toNat = 95) := fun hr => by
        simpa using hA.mpr hr
      split at ht <;> split at ht <;> omega
    · exfalso
      rw [wa] at hA; rw [wc] at hC
      have ha' := hA.mp rfl
      have hc' : ¬((65 ≤ c.toNat ∧ c.toNat ≤ 90) ∨ (97 ≤ c.toNat ∧ c.toNat ≤ 122) ∨
          (48 ≤ c.toNat ∧ c.toNat ≤ 57) ∨ c.toNat = 95) := fun hr => by
        simpa using hC.mpr hr
      split at ht <;> split at ht <;> omega
    · rfl

/-! ## The advancing regex scan equals the all-occurrences scan -/

theorem getElem?_of_getD {α : Type} (l : List α) (j : Nat) (d : α) (h : j < l.length) :
    l[j]? = some (l.getD j d) := by
  rw [List.getD_eq_getElem?_getD, List.getElem?_eq_getElem h]
  rfl

theorem charsMatchAt_get? (ci : Bool) (alt : Str) (text : Str) :
    ∀ p, charsMatchAt ci alt text p = true →
    ∀ j, j < alt.length →
    ∃ ch, text.get? (p + j) = some ch ∧ charMatches ci (alt.getD j ' ') ch = true := by
  induction alt with
  | nil =>
    intro p _ j hj
    exact absurd hj (by simp)
  | cons a as ih =>
    intro p h j hj
    unfold charsMatchAt at h
    cases hg : text.get? p with
    | none => rw [hg] at h; exact absurd h (by simp)
    | some ch =>
      rw [hg, Bool.and_eq_true] at h
      cases j with
      | zero => exact ⟨ch, by simpa using hg, by simpa using h.1⟩
      | succ j =>
        obtain ⟨ch2, hget, hm⟩ := ih (p + 1) h.2 j (by simpa using hj)
        refine ⟨ch2, ?_, ?_⟩
        · rw [show p + (j + 1) = p + 1 + j by omega]; exact hget
        · simpa using hm

theorem charsMatchAt_le_length (ci : Bool) (alt : Str) (text : Str) :
    ∀ p, alt ≠ [] → charsMatchAt ci alt text p = true → p + alt.length ≤ text.length := by
  induction alt with
  | nil => intro p hne _; exact absurd rfl hne
  | cons a as ih =>
    intro p _ h
    unfold charsMatchAt at h
    cases hg : text.get? p with
    | none => rw [hg] at h; exact absurd h (by simp)
    | some ch =>
      rw [hg, Bool.and_eq_true] at h
      have hp : p < text.length := by
        have := List.get?_eq_some.mp hg
        exact this.1
      by_cases hase : as = []
      · subst hase; simpa using hp
      · have := ih (p + 1) hase h.2
        simp only [List.length_cons]
        omega

theorem exists_mismatch :
    ∀ (u v : Str), (u.isPrefixOf v || v.isPrefixOf u) = false →
    ∃ j, j < u.length ∧ j < v.length ∧ u.getD j ' ' ≠ v.getD j ' ' := by
  intro u
  induction u with
  | nil => intro v h; simp [List.isPrefixOf] at h
  | cons x xs ih =>
    intro v h
    cases v with
    | nil => simp [List.isPrefixOf] at h
    | cons y ys =>
      by_cases hxy : x = y
      · subst hxy
        simp only [List.isPrefixOf, beq_self_eq_true, Bool.true_and] at h
        obtain ⟨j, h1, h2, h3⟩ := ih ys h
        exact ⟨j + 1, by simpa using h1, by simpa using h2, by simpa using h3⟩
      · exact ⟨0, by simp, by simp, by simpa using hxy⟩

theorem filterMap_range'_eq_of_none {β : Type} (f : Nat → Option β) :
    ∀ (k s n : Nat), k ≤ n → (∀ q, s ≤ q → q < s + k → f q = none) →
    (List.range' s n).filterMap f = (List.range' (s + k) (n - k)).filterMap f := by
  intro k
  induction k with
  | zero => intro s n _ _; simp
  | succ k ih =>
    intro s n hk hnone
    cases n with
    | zero => omega
    | succ n =>
      rw [List.range'_succ, List.filterMap_cons, hnone s (Nat.le_refl s) (by omega)]
      have := ih (s + 1) n (by omega) (fun q hq1 hq2 => hnone q (by omega) (by omega))
      rw [this, show s + 1 + k = s + (k + 1) by omega, show n - k = n + 1 - (k + 1) by omega]

/-- The global-regex advancement discipline never misses an occurrence when
no alternative can match (with boundaries) strictly inside another match:
the advancing scan equals position-by-position matching. -/
theorem rxScanGo_eq_from (alts : List Str) (ci : Bool) (text : Str)
    (hne : ∀ a ∈ alts, a ≠ [])
    (hno : ∀ p a, firstAltAt alts ci text p = some a →
      ∀ q, p < q → q < p + a.length → firstAltAt alts ci text q = none) :
    ∀ fuel p, text.length ≤ fuel + p →
      rxScanGo alts ci text fuel p =
      (List.range' p (text.length - p)).filterMap
        (fun q => (firstAltAt alts ci text q).map fun a => (text.drop q).take a.length) := by
  intro fuel
  induction fuel with
  | zero =>
    intro p hp
    rw [rxScanGo, show text.length - p = 0 by omega]
    simp
  | succ fuel ih =>
    intro p hp
    rw [rxScanGo]
    by_cases hplen : p < text.length
    · rw [if_pos hplen]
      have hrange : text.length - p = (text.length - (p + 1)) + 1 := by omega
      cases hfa : firstAltAt alts ci text p with
      | none =>
        rw [hrange, List.range'_succ, List.filterMap_cons, hfa]
        exact ih (p + 1) (by omega)
      | some a =>
        have hfa' : alts.find? (fun b => matchesAt ci b text p) = some a := hfa
        have hmem : a ∈ alts := List.mem_of_find?_eq_some hfa'
        have hmatch : matchesAt ci a text p = true := by
          simpa using List.find?_some hfa'
        have hanil : a ≠ [] := hne a hmem
        have halen : 0 < a.length := List.length_pos.mpr hanil
        have hbound : p + a.length ≤ text.length := by
          unfold matchesAt at hmatch
          rw [Bool.and_eq_true, Bool.and_eq_true] at hmatch
          exact charsMatchAt_le_length ci a text p hanil hmatch.1.1
        rw [hrange, List.range'_succ, List.filterMap_cons, hfa]
        have hgap := filterMap_range'_eq_of_none
          (fun q => (firstAltAt alts ci text q).map fun a => (text.drop q).take a.length)
          (a.length - 1) (p + 1) (text.length - (p + 1)) (by omega)
          (fun q hq1 hq2 => by
            have h0 : firstAltAt alts ci text q = none :=
              hno p a hfa q (by omega) (by omega)
            simp [h0])
        rw [hgap, show p + 1 + (a.length - 1) = p + a.length by omega,
          show text.length - (p + 1) - (a.length - 1) = text.length - (p + a.length) by omega]
        exact congrArg (List.cons ((text.drop p).take a.length))
          (ih (p + a.length) (by omega))
    · rw [if_neg hplen, show text.length - p = 0 by omega]
      simp

/-- No alternative can match (with its word boundaries) strictly inside a
match of another alternative, provided: every alternative is nonempty and
starts with a word character; the evaluated `noInnerStart` condition holds;
and either matching is case-sensitive or every alternative consists of word
characters only. -/
theorem firstAltAt_none_inside (alts : List Str) (ci : Bool) (text : Str)
    (hne : ∀ b ∈ alts, b ≠ [])
    (hstart : ∀ b ∈ alts, wordChar (b.headD ' ') = true)
    (hinner : noInnerStart alts = true)
    (hci : ci = false ∨ ∀ a ∈ alts, ∀ ch ∈ a, wordChar ch = true) :
    ∀ p a, firstAltAt alts ci text p = some a →
    ∀ q, p < q → q < p + a.length → firstAltAt alts ci text q = none := by
  intro p a hfa q hq1 hq2
  have hfa' : alts.find? (fun b => matchesAt ci b text p) = some a := hfa
  have hmem : a ∈ alts := List.mem_of_find?_eq_some hfa'
  have hmatch : matchesAt ci a text p = true := by simpa using List.find?_some hfa'
  unfold matchesAt at hmatch
  rw [Bool.and_eq_true, Bool.and_eq_true] at hmatch
  obtain ⟨⟨hchars, hbp⟩, hbe⟩ := hmatch
  show alts.find? (fun b => matchesAt ci b text q) = none
  rw [List.find?_eq_none]
  intro b hb hmb
  replace hmb : matchesAt ci b text q = true := hmb
  unfold matchesAt at hmb
  rw [Bool.and_eq_true, Bool.and_eq_true] at hmb
  obtain ⟨⟨hcharsb, hbq⟩, hbe2⟩ := hmb
  obtain ⟨c1, hg1, hm1⟩ := charsMatchAt_get? ci a text p hchars (q - p - 1) (by omega)
  obtain ⟨c2, hg2, hm2⟩ := charsMatchAt_get? ci a text p hchars (q - p) (by omega)
  rw [show p + (q - p - 1) = q - 1 by omega] at hg1
  rw [show p + (q - p) = q by omega] at hg2
  obtain ⟨cb, hgb, hmb0⟩ :=
    charsMatchAt_get? ci b text q hcharsb 0 (List.length_pos.mpr (hne b hb))
  rw [Nat.add_zero] at hgb
  have hcb : cb = c2 := by
    rw [hgb] at hg2; exact Option.some.inj hg2
  by_cases hw2 : wordChar (a.getD (q - p) ' ') = true
  · -- the text character at q is a word character
    have hwc2 : wordChar c2 = true := by
      rw [← charMatches_wordChar_eq ci _ _ hm2]; exact hw2
    by_cases hw1 : wordChar (a.getD (q - p - 1) ' ') = true
    · -- both neighbours of the boundary at q are word characters: `\b` fails
      have hwc1 : wordChar c1 = true := by
        rw [← charMatches_wordChar_eq ci _ _ hm1]; exact hw1
      cases q with
      | zero => omega
      | succ q' =>
        have hbq' : (wordAt text q' != wordAt text (q' + 1)) = true := hbq
        have hA : wordAt text q' = true := by
          unfold wordAt
          rw [show text.get? q' = some c1 from by simpa using hg1]
          exact hwc1
        have hB : wordAt text (q' + 1) = true := by
          unfold wordAt
          rw [show text.get? (q' + 1) = some c2 from hg2]
          exact hwc2
        rw [hA, hB] at hbq'
        exact absurd hbq' (by decide)
    · -- the previous character of `a` is not a word character
      rcases hci with hcif | hword
      · subst hcif
        have hIa := (List.all_eq_true.mp hinner) a hmem
        have hIoff := (List.all_eq_true.mp hIa) (q - p)
          (List.mem_range'_1.mpr ⟨by omega, by omega⟩)
        rw [Bool.or_eq_true] at hIoff
        rcases hIoff with hIw | hall
        · exact hw1 hIw
        · have hbno := (List.all_eq_true.mp hall) b hb
          rw [Bool.not_eq_true'] at hbno
          obtain ⟨j, hj1, hj2, hjne⟩ := exists_mismatch b (a.drop (q - p)) hbno
          rw [List.length_drop] at hj2
          obtain ⟨cbj, hgbj, hmbj⟩ := charsMatchAt_get? false b text q hcharsb j hj1
          obtain ⟨caj, hgaj, hmaj⟩ :=
            charsMatchAt_get? false a text p hchars (q - p + j) (by omega)
          rw [show p + (q - p + j) = q + j by omega] at hgaj
          have hceq : cbj = caj := by
            rw [hgbj] at hgaj; exact Option.some.inj hgaj
          have h1 : b.getD j ' ' = cbj := by simpa [charMatches] using hmbj
          have h2 : a.getD (q - p + j) ' ' = caj := by simpa [charMatches] using hmaj
          have h3 : (a.drop (q - p)).getD j ' ' = a.getD (q - p + j) ' ' := by
            simp [List.getD_eq_getElem?_getD, List.getElem?_drop]
          exact hjne (by rw [h3, h1, h2, hceq])
      · have hmem1 : a.getD (q - p - 1) ' ' ∈ a := by
          have hlt : q - p - 1 < a.length := by omega
          exact List.getElem?_mem (getElem?_of_getD a (q - p - 1) ' ' hlt)
        exact hw1 (hword a hmem _ hmem1)
  · -- the text character at q is not a word character, but every
    -- alternative starts with one
    have hwc2 : wordChar c2 = false := by
      cases hx : wordChar c2 with
      | false => rfl
      | true => exact absurd ((charMatches_wordChar_eq ci _ _ hm2).trans hx) hw2
    have hstartb : wordChar (b.getD 0 ' ') = true := by
      have hh := hstart b hb
      have hbne := hne b hb
      cases b with
      | nil => exact absurd rfl hbne
      | cons x xs => simpa using hh
    have hcbw : wordChar cb = true := by
      rw [← charMatches_wordChar_eq ci _ _ hmb0]
      exact hstartb
    rw [hcb, hwc2] at hcbw
    exact Bool.noConfusion hcbw

theorem rxScan_eq_rxAll (alts : List Str) (ci : Bool) (text : Str)
    (hne : ∀ a ∈ alts, a ≠ [])
    (hno : ∀ p a, firstAltAt alts ci text p = some a →
      ∀ q, p < q → q < p + a.length → firstAltAt alts ci text q = none) :
    rxScan alts ci text = rxAll alts ci text := by
  unfold rxScan rxAll
  rw [rxScanGo_eq_from alts ci text hne hno (text.length + 1) 0 (by omega),
    List.range_eq_range']
  rfl

theorem rxScan_keywords (line : Str) :
    rxScan keywordAlts true line = rxAll keywordAlts true line :=
  rxScan_eq_rxAll keywordAlts true line (by decide)
    (firstAltAt_none_inside keywordAlts true line (by decide) (by decide) (by decide)
      (Or.inr (by decide)))

theorem rxScan_fields (line : Str) :
    rxScan knownFields false line = rxAll knownFields false line :=
  rxScan_eq_rxAll knownFields false line (by decide)
    (firstAltAt_none_inside knownFields false line (by decide) (by decide) (by decide)
      (Or.inl rfl))

theorem lineSymbols_eq_spec (i : Nat) (line : Str) :
    lineSymbols i line = lineSymbolsSpec i line := by
  unfold lineSymbols lineSymbolsSpec
  rw [rxScan_keywords, rxScan_fields]

/-! ## Formatter: lexer round-trip lemmas -/

theorem unlex_nil : unlex [] = [] := rfl

theorem unlex_cons (t : Tok) (ts : List Tok) :
    unlex (t :: ts) =
      (match t with | Tok.word w => w | Tok.sym c => [c]) ++ unlex ts := rfl

theorem unlex_lex (s : Str) : unlex (lex s) = s := by
  induction s with
  | nil => rfl
  | cons c cs ih =>
    rw [lex]
    by_cases hw : wordChar c
    · rw [if_pos hw]
      cases hcs : lex cs with
      | nil =>
        have hcs2 : cs = [] := by rw [← ih, hcs]; rfl
        subst hcs2
        rfl
      | cons t ts =>
        rw [hcs] at ih
        cases t with
        | word w =>
          rw [unlex_cons]
          rw [unlex_cons] at ih
          simpa using ih
        | sym d =>
          rw [unlex_cons]
          simpa using ih
    · rw [if_neg hw, unlex_cons]
      simpa using ih

theorem noWordHead_lex_dropcase (cs : Str) (hc : ∀ w ts, lex cs = Tok.word w :: ts → False) :
    noWordHead (lex cs) = true := by
  cases hcs : lex cs with
  | nil => rfl
  | cons t ts =>
    cases t with
    | word w => exact absurd (hcs) (by intro h; exact hc w ts h)
    | sym c => rfl

theorem toksWF_lex (s : Str) : toksWF (lex s) = true := by
  induction s with
  | nil => rfl
  | cons c cs ih =>
    rw [lex]
    by_cases hw : wordChar c
    · rw [if_pos hw]
      cases hcs : lex cs with
      | nil => simp [toksWF, noWordHead, hw]
      | cons t ts =>
        rw [hcs] at ih
        cases t with
        | word w =>
          rw [toksWF] at ih ⊢
          simp only [Bool.and_eq_true] at ih ⊢
          refine ⟨⟨⟨by simp, ?_⟩, ih.1.2⟩, ih.2⟩
          have := ih.1.1.2
          simp only [List.all_cons, Bool.and_eq_true] at this ⊢
          exact ⟨hw, this⟩
        | sym d =>
          rw [toksWF] at ih
          simp only [Bool.and_eq_true] at ih
          simp [toksWF, noWordHead, hw, ih.1, ih.2]
    · rw [if_neg hw, toksWF]
      simp [hw, ih]

theorem lex_word_append (u r : Str) (hne : u ≠ []) (hword : u.all wordChar = true) :
    lex (u ++ r) =
      (match lex r with
       | Tok.word v :: ts => Tok.word (u ++ v) :: ts
       | ts => Tok.word u :: ts) := by
  induction u with
  | nil => exact absurd rfl hne
  | cons x xs ih =>
    simp only [List.all_cons, Bool.and_eq_true] at hword
    by_cases hxs : xs = []
    · subst hxs
      show lex (x :: r) = _
      rw [lex, if_pos hword.1]
      cases hr : lex r with
      | nil => rfl
      | cons t ts => cases t <;> rfl
    · have hih := ih hxs hword.2
      show lex (x :: (xs ++ r)) = _
      rw [lex, if_pos hword.1, hih]
      cases hr : lex r with
      | nil => rfl
      | cons t ts => cases t <;> rfl

theorem lex_unlex (ts : List Tok) (h : toksWF ts = true) : lex (unlex ts) = ts := by
  induction ts with
  | nil => rfl
  | cons t ts ih =>
    cases t with
    | sym c =>
      rw [toksWF, Bool.and_eq_true] at h
      rw [unlex_cons]
      show lex (c :: unlex ts) = _
      rw [lex, if_neg (by simpa using h.1), ih h.2]
    | word w =>
      rw [toksWF, Bool.and_eq_true, Bool.and_eq_true, Bool.and_eq_true] at h
      obtain ⟨⟨⟨hne, hword⟩, hhead⟩, hwf⟩ := h
      rw [unlex_cons]
      show lex (w ++ unlex ts) = _
      rw [lex_word_append w (unlex ts) (by simpa using hne) hword, ih hwf]
      cases hts : ts with
      | nil => rfl
      | cons t' ts' =>
        cases t' with
        | word v => rw [hts] at hhead; exact absurd hhead (by simp [noWordHead])
        | sym c => rfl

/-! ## Formatter: keyword uppercasing at token level -/

theorem kwUpper_cases (w : Str) :
    (upStr w ∈ keywordAlts ∧ kwUpper w = upStr w) ∨
    (upStr w ∉ keywordAlts ∧ kwUpper w = w) := by
  unfold kwUpper
  by_cases h : upStr w ∈ keywordAlts
  · exact Or.inl ⟨h, by rw [if_pos h]⟩
  · exact Or.inr ⟨h, by rw [if_neg h]⟩

theorem upStr_keyword_fix (w : Str) (h : upStr w ∈ keywordAlts) :
    upStr (upStr w) = upStr w ∧ (upStr w).all wordChar = true ∧
    ((upStr w).isEmpty = false) := by
  simp only [keywordAlts, List.mem_cons, List.not_mem_nil, or_false] at h
  rcases h with h | h | h | h | h | h | h <;> rw [h] <;> exact ⟨by decide, by decide, by decide⟩

theorem kwUpper_wf (w : Str) (hne : w.isEmpty = false) (hword : w.all wordChar = true) :
    (kwUpper w).isEmpty = false ∧ (kwUpper w).all wordChar = true := by
  rcases kwUpper_cases w with ⟨h, he⟩ | ⟨h, he⟩
  · rw [he]
    have := upStr_keyword_fix w h
    exact ⟨this.2.2, this.2.1⟩
  · rw [he]; exact ⟨hne, hword⟩

theorem kwUpper_idem (w : Str) : kwUpper (kwUpper w) = kwUpper w := by
  rcases kwUpper_cases w with ⟨h, he⟩ | ⟨h, he⟩
  · rw [he]
    have hup := (upStr_keyword_fix w h).1
    unfold kwUpper
    rw [hup, if_pos h]
  · rw [he]; exact he

theorem upTok_upTok (t : Tok) : upTok (upTok t) = upTok t := by
  cases t with
  | word w => show Tok.word (kwUpper (kwUpper w)) = Tok.word (kwUpper w); rw [kwUpper_idem]
  | sym c => rfl

theorem noWordHead_map_upTok (ts : List Tok) (h : noWordHead ts = true) :
    noWordHead (ts.map upTok) = true := by
  cases ts with
  | nil => rfl
  | cons t ts =>
    cases t with
    | word w => exact absurd h (by simp [noWordHead])
    | sym c => rfl

theorem upTok_toksWF (ts : List Tok) (h : toksWF ts = true) :
    toksWF (ts.map upTok) = true := by
  induction ts with
  | nil => rfl
  | cons t ts ih =>
    cases t with
    | sym c =>
      rw [toksWF, Bool.and_eq_true] at h
      rw [List.map_cons]
      show toksWF (Tok.sym c :: ts.map upTok) = true
      rw [toksWF]
      simp [h.1, ih h.2]
    | word w =>
      rw [toksWF, Bool.and_eq_true, Bool.and_eq_true, Bool.and_eq_true] at h
      obtain ⟨⟨⟨hne, hword⟩, hhead⟩, hwf⟩ := h
      have hkw := kwUpper_wf w (by simpa using hne) hword
      rw [List.map_cons]
      show toksWF (Tok.word (kwUpper w) :: ts.map upTok) = true
      rw [toksWF]
      simp [hkw.1, hkw.2, noWordHead_map_upTok ts hhead, ih hwf]

theorem lex_upperKw (s : Str) : lex (upperKw s) = (lex s).map upTok := by
  unfold upperKw
  exact lex_unlex _ (upTok_toksWF _ (toksWF_lex s))

theorem upperKw_idem (s : Str) : upperKw (upperKw s) = upperKw s := by
  conv_lhs => rw [upperKw]
  rw [lex_upperKw, List.map_map]
  have hcomp : upTok ∘ upTok = upTok := funext upTok_upTok
  rw [hcomp]
  rfl

/-! ## Formatter: character classes and the punctuation-spacing stage -/

theorem punct_not_word (c : Char) (h : punctChar c = true) : wordChar c = false := by
  simp only [punctChar, Bool.or_eq_true, beq_iff_eq] at h
  rcases h with (((h | h) | h) | h) | h <;> subst h <;> decide

theorem ws_not_word (c : Char) (h : isWsChar c = true) : wordChar c = false := by
  simp only [isWsChar, Bool.or_eq_true, beq_iff_eq] at h
  rcases h with ((((h | h) | h) | h) | h) | h <;> subst h <;> decide

theorem word_not_punct (c : Char) (h : wordChar c = true) : punctChar c = false := by
  cases hp : punctChar c
  · rfl
  · rw [punct_not_word c hp] at h; exact Bool.noConfusion h

theorem word_not_ws (c : Char) (h : wordChar c = true) : isWsChar c = false := by
  cases hp : isWsChar c
  · rfl
  · rw [ws_not_word c hp] at h; exact Bool.noConfusion h

theorem ws_not_punct (c : Char) (h : isWsChar c = true) : punctChar c = false := by
  simp only [isWsChar, Bool.or_eq_true, beq_iff_eq] at h
  rcases h with ((((h | h) | h) | h) | h) | h <;> subst h <;> decide

theorem punct_not_ws (c : Char) (h : punctChar c = true) : isWsChar c = false := by
  simp only [punctChar, Bool.or_eq_true, beq_iff_eq] at h
  rcases h with (((h | h) | h) | h) | h <;> subst h <;> decide

theorem unlex_append (ts us : List Tok) : unlex (ts ++ us) = unlex ts ++ unlex us := by
  unfold unlex
  rw [List.flatMap_append]

theorem bTok_word (w : Str) : bTok (Tok.word w) = [Tok.word w] := rfl

theorem bTok_sym (c : Char) :
    bTok (Tok.sym c) = if punctChar c then [Tok.sym c, Tok.sym ' '] else [Tok.sym c] := rfl

theorem spaceAfter_cons (c : Char) (t : Str) :
    spaceAfter (c :: t) = (if punctChar c then [c, ' '] else [c]) ++ spaceAfter t := rfl

theorem spaceAfter_word (u : Str) (h : u.all wordChar = true) (r : Str) :
    spaceAfter (u ++ r) = u ++ spaceAfter r := by
  induction u with
  | nil => rfl
  | cons x xs ih =>
    simp only [List.all_cons, Bool.and_eq_true] at h
    rw [List.cons_append, spaceAfter_cons, if_neg (by rw [word_not_punct x h.1]; simp),
      ih h.2]
    rfl

theorem spaceAfter_unlex (ts : List Tok) (hwf : toksWF ts = true) :
    spaceAfter (unlex ts) = unlex (ts.flatMap bTok) := by
  induction ts with
  | nil => rfl
  | cons t ts ih =>
    cases t with
    | word w =>
      rw [toksWF, Bool.and_eq_true, Bool.and_eq_true, Bool.and_eq_true] at hwf
      rw [unlex_cons, List.flatMap_cons, bTok_word]
      show spaceAfter (w ++ unlex ts) = unlex ([Tok.word w] ++ ts.flatMap bTok)
      rw [spaceAfter_word w hwf.1.1.2, unlex_append, ih hwf.2]
      simp [unlex]
    | sym c =>
      rw [toksWF, Bool.and_eq_true] at hwf
      rw [unlex_cons, List.flatMap_cons]
      show spaceAfter (c :: unlex ts) = unlex (bTok (Tok.sym c) ++ ts.flatMap bTok)
      rw [spaceAfter_cons, unlex_append, ih hwf.2, bTok_sym]
      by_cases hp : punctChar c
      · rw [if_pos hp, if_pos hp]; rfl
      · rw [if_neg hp, if_neg hp]; rfl

theorem bTok_upTok (t : Tok) : (bTok t).map upTok = bTok (upTok t) := by
  cases t with
  | word w => rfl
  | sym c =>
    show (bTok (Tok.sym c)).map upTok = bTok (Tok.sym c)
    rw [bTok_sym]
    by_cases hp : punctChar c
    · rw [if_pos hp]; rfl
    · rw [if_neg hp]; rfl

theorem map_upTok_flatMap_bTok (ts : List Tok) :
    (ts.flatMap bTok).map upTok = (ts.map upTok).flatMap bTok := by
  induction ts with
  | nil => rfl
  | cons t ts ih =>
    rw [List.flatMap_cons, List.map_append, List.map_cons, List.flatMap_cons, ih,
      bTok_upTok]

theorem noWordHead_flatMap_bTok (ts : List Tok) (h : noWordHead ts = true) :
    noWordHead (ts.flatMap bTok) = true := by
  cases ts with
  | nil => rfl
  | cons t ts =>
    cases t with
    | word w => exact absurd h (by simp [noWordHead])
    | sym c =>
      rw [List.flatMap_cons, bTok_sym]
      by_cases hp : punctChar c
      · rw [if_pos hp]; rfl
      · rw [if_neg hp]; rfl

theorem bTok_toksWF (ts : List Tok) (hwf : toksWF ts = true) :
    toksWF (ts.flatMap bTok) = true := by
  induction ts with
  | nil => rfl
  | cons t ts ih =>
    cases t with
    | word w =>
      rw [toksWF, Bool.and_eq_true, Bool.and_eq_true, Bool.and_eq_true] at hwf
      rw [List.flatMap_cons]
      show toksWF (Tok.word w :: ts.flatMap bTok) = true
      rw [toksWF]
      simp [hwf.1.1.1, hwf.1.1.2, noWordHead_flatMap_bTok ts hwf.1.2, ih hwf.2]
    | sym c =>
      rw [toksWF, Bool.and_eq_true] at hwf
      rw [List.flatMap_cons, bTok_sym]
      by_cases hp : punctChar c
      · rw [if_pos hp]
        show toksWF (Tok.sym c :: Tok.sym ' ' :: ts.flatMap bTok) = true
        rw [toksWF, toksWF]
        simp [hwf.1, ih hwf.2, show wordChar ' ' = false from by decide]
      · rw [if_neg hp]
        show toksWF (Tok.sym c :: ts.flatMap bTok) = true
        rw [toksWF]
        simp [hwf.1, ih hwf.2]

theorem upperKw_spaceAfter (s : Str) :
    upperKw (spaceAfter s) = spaceAfter (upperKw s) := by
  conv_lhs => rw [show spaceAfter s = spaceAfter (unlex (lex s)) by rw [unlex_lex]]
  rw [spaceAfter_unlex _ (toksWF_lex s)]
  unfold upperKw
  rw [lex_unlex _ (bTok_toksWF _ (toksWF_lex s)), map_upTok_flatMap_bTok,
    ← spaceAfter_unlex _ (upTok_toksWF _ (toksWF_lex s))]

/-! ## Formatter: the whitespace-collapsing stage -/

theorem all_word_not_ws (u : Str) (h : u.all wordChar = true) :
    u.all (fun c => !isWsChar c) = true := by
  rw [List.all_eq_true] at h ⊢
  intro c hc
  rw [word_not_ws c (h c hc)]
  rfl

theorem collapseGo_cons (f : Bool) (c : Char) (t : Str) :
    collapseGo f (c :: t) =
      (if isWsChar c then
        (if f then collapseGo true t else ' ' :: collapseGo true t)
       else c :: collapseGo false t) := rfl

theorem collapseGo_nonws_front (u : Str) :
    ∀ (f : Bool) (r : Str), u ≠ [] → u.all (fun c => !isWsChar c) = true →
    collapseGo f (u ++ r) = u ++ collapseGo false r := by
  induction u with
  | nil => intro f r hne _; exact absurd rfl hne
  | cons x xs ih =>
    intro f r _ hall
    simp only [List.all_cons, Bool.and_eq_true] at hall
    have hx : isWsChar x = false := by
      cases hw : isWsChar x
      · rfl
      · rw [hw] at hall; exact absurd hall.1 (by simp)
    by_cases hxs : xs = []
    · subst hxs
      rw [List.cons_append, collapseGo_cons, if_neg (by rw [hx]; simp)]
      rfl
    · rw [List.cons_append, collapseGo_cons, if_neg (by rw [hx]; simp),
        ih false r hxs hall.2]
      rfl

theorem collapseGo_unlex (ts : List Tok) (hwf : toksWF ts = true) :
    ∀ f, collapseGo f (unlex ts) = unlex (cTokGo f ts) := by
  induction ts with
  | nil => intro f; rfl
  | cons t ts ih =>
    intro f
    cases t with
    | word w =>
      rw [toksWF, Bool.and_eq_true, Bool.and_eq_true, Bool.and_eq_true] at hwf
      rw [unlex_cons]
      show collapseGo f (w ++ unlex ts) = unlex (cTokGo f (Tok.word w :: ts))
      rw [collapseGo_nonws_front w f (unlex ts) (by simpa using hwf.1.1.1)
        (all_word_not_ws w hwf.1.1.2)]
      show w ++ collapseGo false (unlex ts) = unlex (Tok.word w :: cTokGo false ts)
      rw [ih hwf.2 false, unlex_cons]
    | sym c =>
      rw [toksWF, Bool.and_eq_true] at hwf
      rw [unlex_cons]
      show collapseGo f (c :: unlex ts) = unlex (cTokGo f (Tok.sym c :: ts))
      rw [collapseGo_cons]
      by_cases hws : isWsChar c
      · rw [if_pos hws]
        show _ = unlex (if isWsChar c then
            (if f then cTokGo true ts else Tok.sym ' ' :: cTokGo true ts)
          else Tok.sym c :: cTokGo false ts)
        rw [if_pos hws]
        cases f
        · simp only [if_neg (by simp : ¬(false = true))]
          rw [unlex_cons, ih hwf.2 true]
          rfl
        · simp [ih hwf.2 true]
      · rw [if_neg hws]
        show _ = unlex (if isWsChar c then
            (if f then cTokGo true ts else Tok.sym ' ' :: cTokGo true ts)
          else Tok.sym c :: cTokGo false ts)
        rw [if_neg hws, unlex_cons, ih hwf.2 false]
        rfl

theorem cTokGo_map_upTok (ts : List Tok) :
    ∀ f, (cTokGo f ts).map upTok = cTokGo f (ts.map upTok) := by
  induction ts with
  | nil => intro f; rfl
  | cons t ts ih =>
    intro f
    cases t with
    | word w =>
      show (Tok.word w :: cTokGo false ts).map upTok =
        cTokGo f (Tok.word (kwUpper w) :: ts.map upTok)
      rw [List.map_cons, ih false]
      rfl
    | sym c =>
      show ((if isWsChar c then
          (if f then cTokGo true ts else Tok.sym ' ' :: cTokGo true ts)
        else Tok.sym c :: cTokGo false ts)).map upTok =
        cTokGo f (Tok.sym c :: ts.map upTok)
      by_cases hws : isWsChar c
      · rw [if_pos hws]
        show _ = (if isWsChar c then
            (if f then cTokGo true (ts.map upTok)
             else Tok.sym ' ' :: cTokGo true (ts.map upTok))
          else Tok.sym c :: cTokGo false (ts.map upTok))
        rw [if_pos hws]
        cases f
        · simp only [if_neg (by simp : ¬(false = true))]
          rw [List.map_cons, ih true]
          rfl
        · simp [ih true]
      · rw [if_neg hws]
        show _ = (if isWsChar c then
            (if f then cTokGo true (ts.map upTok)
             else Tok.sym ' ' :: cTokGo true (ts.map upTok))
          else Tok.sym c :: cTokGo false (ts.map upTok))
        rw [if_neg hws, List.map_cons, ih false]
        rfl

theorem noWordHead_cTokGo_false (ts : List Tok) (h : noWordHead ts = true) :
    noWordHead (cTokGo false ts) = true := by
  cases ts with
  | nil => rfl
  | cons t ts =>
    cases t with
    | word w => exact absurd h (by simp [noWordHead])
    | sym c =>
      show noWordHead (if isWsChar c then
          (if false = true then cTokGo true ts else Tok.sym ' ' :: cTokGo true ts)
        else Tok.sym c :: cTokGo false ts) = true
      by_cases hws : isWsChar c
      · rw [if_pos hws, if_neg (by simp : ¬(false = true))]; rfl
      · rw [if_neg hws]; rfl

theorem cTokGo_toksWF (ts : List Tok) (hwf : toksWF ts = true) :
    ∀ f, toksWF (cTokGo f ts) = true := by
  induction ts with
  | nil => intro f; rfl
  | cons t ts ih =>
    intro f
    cases t with
    | word w =>
      rw [toksWF, Bool.and_eq_true, Bool.and_eq_true, Bool.and_eq_true] at hwf
      show toksWF (Tok.word w :: cTokGo false ts) = true
      rw [toksWF]
      simp [hwf.1.1.1, hwf.1.1.2, noWordHead_cTokGo_false ts hwf.1.2, ih hwf.2 false]
    | sym c =>
      rw [toksWF, Bool.and_eq_true] at hwf
      show toksWF (if isWsChar c then
          (if f then cTokGo true ts else Tok.sym ' ' :: cTokGo true ts)
        else Tok.sym c :: cTokGo false ts) = true
      by_cases hws : isWsChar c
      · rw [if_pos hws]
        cases f
        · simp only [if_neg (by simp : ¬(false = true))]
          rw [toksWF]
          simp [show wordChar ' ' = false from by decide, ih hwf.2 true]
        · simp [ih hwf.2 true]
      · rw [if_neg hws, toksWF]
        simp [hwf.1, ih hwf.2 false]

theorem upperKw_collapseWs (s : Str) :
    upperKw (collapseWs s) = collapseWs (upperKw s) := by
  unfold collapseWs
  conv_lhs => rw [show collapseGo false s = collapseGo false (unlex (lex s)) by
    rw [unlex_lex]]
  rw [collapseGo_unlex _ (toksWF_lex s) false]
  unfold upperKw
  rw [lex_unlex _ (cTokGo_toksWF _ (toksWF_lex s) false), cTokGo_map_upTok,
    ← collapseGo_unlex _ (upTok_toksWF _ (toksWF_lex s)), ]

/-! ## Formatter: the trim stage -/

theorem trimTrail_cons (c : Char) (cs : Str) :
    trimTrail (c :: cs) =
      (if trimTrail cs = [] ∧ isWsChar c then [] else c :: trimTrail cs) := rfl

theorem dropWhile_unlex (ts : List Tok) (hwf : toksWF ts = true) :
    (unlex ts).dropWhile isWsChar = unlex (dropWsT ts) := by
  induction ts with
  | nil => rfl
  | cons t ts ih =>
    cases t with
    | word w =>
      rw [toksWF, Bool.and_eq_true, Bool.and_eq_true, Bool.and_eq_true] at hwf
      rw [unlex_cons]
      show (w ++ unlex ts).dropWhile isWsChar = unlex (Tok.word w :: ts)
      cases hw : w with
      | nil => rw [hw] at hwf; exact absurd hwf.1.1.1 (by simp)
      | cons x xs =>
        have hword : wordChar x = true := by
          have := hwf.1.1.2
          rw [hw, List.all_cons, Bool.and_eq_true] at this
          exact this.1
        rw [List.cons_append, List.dropWhile_cons,
          if_neg (by rw [word_not_ws x hword]; simp)]
        rfl
    | sym c =>
      rw [toksWF, Bool.and_eq_true] at hwf
      rw [unlex_cons]
      show (c :: unlex ts).dropWhile isWsChar = unlex (dropWsT (Tok.sym c :: ts))
      rw [List.dropWhile_cons]
      show _ = unlex (if isWsChar c then dropWsT ts else Tok.sym c :: ts)
      by_cases hws : isWsChar c
      · rw [if_pos (by simp [hws]), if_pos hws]
        exact ih hwf.2
      · rw [if_neg (by simp [hws]), if_neg hws]
        rfl

theorem dropWsT_map_upTok (ts : List Tok) :
    (dropWsT ts).map upTok = dropWsT (ts.map upTok) := by
  induction ts with
  | nil => rfl
  | cons t ts ih =>
    cases t with
    | word w => rfl
    | sym c =>
      show ((if isWsChar c then dropWsT ts else Tok.sym c :: ts)).map upTok =
        (if isWsChar c then dropWsT (ts.map upTok) else Tok.sym c :: ts.map upTok)
      by_cases hws : isWsChar c
      · rw [if_pos hws, if_pos hws, ih]
      · rw [if_neg hws, if_neg hws]
        rfl

theorem dropWsT_toksWF (ts : List Tok) (hwf : toksWF ts = true) :
    toksWF (dropWsT ts) = true := by
  induction ts with
  | nil => rfl
  | cons t ts ih =>
    cases t with
    | word w => exact hwf
    | sym c =>
      rw [toksWF, Bool.and_eq_true] at hwf
      show toksWF (if isWsChar c then dropWsT ts else Tok.sym c :: ts) = true
      by_cases hws : isWsChar c
      · rw [if_pos hws]; exact ih hwf.2
      · rw [if_neg hws, toksWF]
        simp [hwf.1, hwf.2]

theorem trimTrail_nonws_front (u : Str) :
    ∀ r, u.all (fun c => !isWsChar c) = true → trimTrail (u ++ r) = u ++ trimTrail r := by
  induction u with
  | nil => intro r _; rfl
  | cons x xs ih =>
    intro r hall
    simp only [List.all_cons, Bool.and_eq_true] at hall
    have hx : isWsChar x = false := by
      cases hw : isWsChar x
      · rfl
      · rw [hw] at hall; exact absurd hall.1 (by simp)
    rw [List.cons_append, trimTrail_cons, ih r hall.2,
      if_neg (by rw [hx]; simp)]
    rfl

theorem unlex_eq_nil_iff (ts : List Tok) (hwf : toksWF ts = true) :
    unlex ts = [] ↔ ts = [] := by
  cases ts with
  | nil => simp [unlex]
  | cons t ts =>
    cases t with
    | word w =>
      rw [toksWF, Bool.and_eq_true, Bool.and_eq_true, Bool.and_eq_true] at hwf
      rw [unlex_cons]
      constructor
      · intro h
        have : w = [] := by
          cases hw : w with
          | nil => rfl
          | cons x xs => rw [hw] at h; exact absurd h (by simp)
        rw [this] at hwf
        exact absurd hwf.1.1.1 (by simp)
      · intro h; exact absurd h (by simp)
    | sym c =>
      rw [unlex_cons]
      simp

theorem noWordHead_trimTrailT (ts : List Tok) (h : noWordHead ts = true) :
    noWordHead (trimTrailT ts) = true := by
  cases ts with
  | nil => rfl
  | cons t ts =>
    show noWordHead (if (trimTrailT ts).isEmpty && isWsSym t then [] else t :: trimTrailT ts) = true
    by_cases hc : ((trimTrailT ts).isEmpty && isWsSym t) = true
    · rw [if_pos hc]; rfl
    · rw [if_neg hc]
      cases t with
      | word w => exact absurd h (by simp [noWordHead])
      | sym c => rfl

theorem trimTrailT_toksWF (ts : List Tok) (hwf : toksWF ts = true) :
    toksWF (trimTrailT ts) = true := by
  induction ts with
  | nil => rfl
  | cons t ts ih =>
    show toksWF (if (trimTrailT ts).isEmpty && isWsSym t then [] else t :: trimTrailT ts) = true
    by_cases hc : ((trimTrailT ts).isEmpty && isWsSym t) = true
    · rw [if_pos hc]; rfl
    · rw [if_neg hc]
      cases t with
      | word w =>
        rw [toksWF, Bool.and_eq_true, Bool.and_eq_true, Bool.and_eq_true] at hwf
        rw [toksWF]
        simp [hwf.1.1.1, hwf.1.1.2, noWordHead_trimTrailT ts hwf.1.2, ih hwf.2]
      | sym c =>
        rw [toksWF, Bool.and_eq_true] at hwf
        rw [toksWF]
        simp [hwf.1, ih hwf.2]

theorem trimTrailT_unlex (ts : List Tok) (hwf : toksWF ts = true) :
    trimTrail (unlex ts) = unlex (trimTrailT ts) := by
  induction ts with
  | nil => rfl
  | cons t ts ih =>
    have hwftail : toksWF ts = true := by
      cases t with
      | word w =>
        rw [toksWF, Bool.and_eq_true, Bool.and_eq_true, Bool.and_eq_true] at hwf
        exact hwf.2
      | sym c =>
        rw [toksWF, Bool.and_eq_true] at hwf
        exact hwf.2
    have hnil : (trimTrail (unlex ts) = []) ↔ ((trimTrailT ts).isEmpty = true) := by
      rw [ih hwftail, List.isEmpty_iff]
      exact unlex_eq_nil_iff _ (trimTrailT_toksWF ts hwftail)
    cases t with
    | sym c =>
      rw [unlex_cons]
      show trimTrail (c :: unlex ts) = unlex (trimTrailT (Tok.sym c :: ts))
      rw [trimTrail_cons]
      show _ = unlex (if (trimTrailT ts).isEmpty && isWsSym (Tok.sym c) then []
        else Tok.sym c :: trimTrailT ts)
      by_cases hws : isWsChar c
      · by_cases hz : trimTrail (unlex ts) = []
        · rw [if_pos ⟨hz, hws⟩, if_pos (by simp [hnil.mp hz, isWsSym, hws])]
          rfl
        · rw [if_neg (fun hh => hz hh.1),
            if_neg (by
              intro hh
              rw [Bool.and_eq_true] at hh
              exact hz (hnil.mpr hh.1)), unlex_cons, ih hwftail]
          rfl
      · rw [if_neg (fun hh : _ ∧ _ => hws hh.2),
          if_neg (by
            intro hh
            rw [Bool.and_eq_true] at hh
            exact hws hh.2), unlex_cons, ih hwftail]
        rfl
    | word w =>
      rw [toksWF, Bool.and_eq_true, Bool.and_eq_true, Bool.and_eq_true] at hwf
      rw [unlex_cons]
      show trimTrail (w ++ unlex ts) = unlex (trimTrailT (Tok.word w :: ts))
      rw [trimTrail_nonws_front w (unlex ts) (all_word_not_ws w hwf.1.1.2)]
      show _ = unlex (if (trimTrailT ts).isEmpty && isWsSym (Tok.word w) then []
        else Tok.word w :: trimTrailT ts)
      rw [if_neg (by
        intro hh
        rw [Bool.and_eq_true] at hh
        exact Bool.noConfusion hh.2), unlex_cons, ih hwf.2]

theorem trimTrailT_map_upTok (ts : List Tok) :
    (trimTrailT ts).map upTok = trimTrailT (ts.map upTok) := by
  induction ts with
  | nil => rfl
  | cons t ts ih =>
    show ((if (trimTrailT ts).isEmpty && isWsSym t then [] else t :: trimTrailT ts)).map upTok =
      (if (trimTrailT (ts.map upTok)).isEmpty && isWsSym (upTok t) then []
       else upTok t :: trimTrailT (ts.map upTok))
    have hempty : (trimTrailT (ts.map upTok)).isEmpty = (trimTrailT ts).isEmpty := by
      rw [← ih]
      cases trimTrailT ts <;> rfl
    have hsym : isWsSym (upTok t) = isWsSym t := by cases t <;> rfl
    rw [hempty, hsym]
    by_cases hc : ((trimTrailT ts).isEmpty && isWsSym t) = true
    · rw [if_pos hc, if_pos hc]
      rfl
    · rw [if_neg hc, if_neg hc, List.map_cons, ih]

theorem upperKw_trimStr (s : Str) : upperKw (trimStr s) = trimStr (upperKw s) := by
  unfold trimStr
  have h1 : s.dropWhile isWsChar = unlex (dropWsT (lex s)) := by
    conv_lhs => rw [show s = unlex (lex s) by rw [unlex_lex]]
    exact dropWhile_unlex _ (toksWF_lex s)
  rw [h1, trimTrailT_unlex _ (dropWsT_toksWF _ (toksWF_lex s))]
  unfold upperKw
  rw [lex_unlex _ (trimTrailT_toksWF _ (dropWsT_toksWF _ (toksWF_lex s))),
    trimTrailT_map_upTok, dropWsT_map_upTok]
  have h2 : (unlex ((lex s).map upTok)).dropWhile isWsChar =
      unlex (dropWsT ((lex s).map upTok)) :=
    dropWhile_unlex _ (upTok_toksWF _ (toksWF_lex s))
  rw [h2, trimTrailT_unlex _ (dropWsT_toksWF _ (upTok_toksWF _ (toksWF_lex s)))]

theorem upperKw_fmtLine (x : Str) : upperKw (fmtLine x) = fmtLine x := by
  unfold fmtLine
  rw [upperKw_trimStr, upperKw_collapseWs, upperKw_spaceAfter, upperKw_idem]

/-! ## Formatter: canonical shape of formatted lines -/

theorem canonS_one (c : Char) : canonS [c] = !isWsChar c := rfl

theorem canonS_cons2 (c d : Char) (rest : Str) :
    canonS (c :: d :: rest) =
      ((if isWsChar c then c == ' ' && !isWsChar d
        else if punctChar c then d == ' '
        else true) && canonS (d :: rest)) := rfl

theorem midOk_one (c : Char) : midOk [c] = ((!isWsChar c || c == ' ') && !punctChar c) := rfl

theorem midOk_cons2 (c d : Char) (rest : Str) :
    midOk (c :: d :: rest) =
      ((if isWsChar c then c == ' ' && !isWsChar d
        else if punctChar c then d == ' '
        else true) && midOk (d :: rest)) := rfl

theorem canonS_tail (c : Char) (cs : Str) (h : canonS (c :: cs) = true) :
    canonS cs = true := by
  cases cs with
  | nil => rfl
  | cons d rest =>
    rw [canonS_cons2, Bool.and_eq_true] at h
    exact h.2

theorem midOk_tail (c : Char) (cs : Str) (h : midOk (c :: cs) = true) :
    midOk cs = true := by
  cases cs with
  | nil => rfl
  | cons d rest =>
    rw [midOk_cons2, Bool.and_eq_true] at h
    exact h.2

theorem lastIsPunct_cons2 (a b : Char) (t : Str) :
    lastIsPunct (a :: b :: t) = lastIsPunct (b :: t) := rfl

theorem headNonWs_collapseGo_true (X : Str) : headNonWs (collapseGo true X) = true := by
  induction X with
  | nil => rfl
  | cons c X ih =>
    rw [collapseGo_cons]
    by_cases hws : isWsChar c
    · rw [if_pos hws]
      simpa using ih
    · rw [if_neg hws]
      show (!isWsChar c) = true
      simp [hws]

theorem collapseGo_flagSwitch (X : Str) (h : headNonWs X = true) :
    collapseGo true X = collapseGo false X := by
  cases X with
  | nil => rfl
  | cons c X =>
    have hws : isWsChar c = false := by
      cases hw : isWsChar c
      · rfl
      · rw [show headNonWs (c :: X) = !isWsChar c from rfl, hw] at h
        exact absurd h (by simp)
    rw [collapseGo_cons, collapseGo_cons, if_neg (by simp [hws]),
      if_neg (by simp [hws])]

theorem headNonWs_spaceAfter (d : Char) (r : Str) (hd : isWsChar d = false) :
    headNonWs (spaceAfter (d :: r)) = true := by
  rw [spaceAfter_cons]
  by_cases hp : punctChar d
  · rw [if_pos hp]
    show (!isWsChar d) = true
    simp [hd]
  · rw [if_neg hp]
    show (!isWsChar d) = true
    simp [hd]

theorem midOk_cons_space (T : Str) (hh : headNonWs T = true) (hm : midOk T = true) :
    midOk (' ' :: T) = true := by
  cases T with
  | nil => decide
  | cons t T' =>
    rw [midOk_cons2, Bool.and_eq_true]
    refine ⟨?_, hm⟩
    rw [if_pos (by decide)]
    have : isWsChar t = false := by
      cases hw : isWsChar t
      · rfl
      · rw [show headNonWs (t :: T') = !isWsChar t from rfl, hw] at hh
        exact absurd hh (by simp)
    simp [this]

theorem midOk_cons_other (c : Char) (T : Str) (hws : isWsChar c = false)
    (hp : punctChar c = false) (hm : midOk T = true) : midOk (c :: T) = true := by
  cases T with
  | nil =>
    rw [midOk_one]
    simp [hws, hp]
  | cons t T' =>
    rw [midOk_cons2, Bool.and_eq_true]
    refine ⟨?_, hm⟩
    rw [if_neg (by simp [hws]), if_neg (by simp [hp])]

theorem midOk_cons_punct (c : Char) (T : Str) (hp : punctChar c = true)
    (hm : midOk (' ' :: T) = true) : midOk (c :: ' ' :: T) = true := by
  rw [midOk_cons2, Bool.and_eq_true]
  refine ⟨?_, hm⟩
  rw [if_neg (by simp [punct_not_ws c hp]), if_pos hp]
  decide

theorem midOk_collapse_spaceAfter (s : Str) : ∀ f, midOk (collapseGo f (spaceAfter s)) = true := by
  induction s with
  | nil => intro f; rfl
  | cons c cs ih =>
    intro f
    rw [spaceAfter_cons]
    by_cases hp : punctChar c
    · rw [if_pos hp]
      have hcw : isWsChar c = false := punct_not_ws c hp
      rw [List.cons_append, List.cons_append, List.nil_append, collapseGo_cons,
        if_neg (by simp [hcw]), collapseGo_cons, if_pos (by decide)]
      simp only [if_neg (show ¬(false = true) by simp)]
      exact midOk_cons_punct c _ hp
        (midOk_cons_space _ (headNonWs_collapseGo_true _) (ih true))
    · rw [if_neg hp, List.cons_append, List.nil_append, collapseGo_cons]
      by_cases hws : isWsChar c
      · rw [if_pos hws]
        cases f
        · simp only [if_neg (show ¬(false = true) by simp)]
          exact midOk_cons_space _ (headNonWs_collapseGo_true _) (ih true)
        · simp only [if_pos rfl]
          exact ih true
      · rw [if_neg hws]
        exact midOk_cons_other c _ (by simpa using hws) (by simpa using hp) (ih false)

theorem trimTrail_head (cs : Str) (h : trimTrail cs ≠ []) :
    trimTrail cs = cs.headD ' ' :: (trimTrail cs).tail := by
  cases cs with
  | nil => exact absurd rfl h
  | cons c cs' =>
    rw [trimTrail_cons] at h ⊢
    by_cases hc : trimTrail cs' = [] ∧ isWsChar c = true
    · rw [if_pos hc] at h; exact absurd rfl h
    · rw [if_neg hc]; rfl

theorem canonS_trimTrail (v : Str) (h : midOk v = true) : canonS (trimTrail v) = true := by
  induction v with
  | nil => rfl
  | cons c cs ih =>
    have hcs := ih (midOk_tail c cs h)
    rw [trimTrail_cons]
    by_cases hc : trimTrail cs = [] ∧ isWsChar c = true
    · rw [if_pos hc]; rfl
    · rw [if_neg hc]
      cases hr : trimTrail cs with
      | nil =>
        rw [canonS_one]
        have : isWsChar c = false := by
          cases hw : isWsChar c
          · rfl
          · exact absurd ⟨hr, hw⟩ hc
        simp [this]
      | cons d r' =>
        rw [canonS_cons2, Bool.and_eq_true]
        rw [hr] at hcs
        refine ⟨?_, hcs⟩
        have hd : d = cs.headD ' ' := by
          have := trimTrail_head cs (by rw [hr]; simp)
          rw [hr] at this
          exact (List.cons.inj this).1
        cases hcs2 : cs with
        | nil => rw [hcs2] at hr; exact absurd hr (by simp [trimTrail])
        | cons e es =>
          have hde : d = e := by rw [hd, hcs2]; rfl
          rw [hcs2] at h
          rw [midOk_cons2, Bool.and_eq_true] at h
          rw [hde]
          exact h.1

theorem dropWhile_midOk (s : Str) (h : midOk s = true) :
    midOk (s.dropWhile isWsChar) = true := by
  induction s with
  | nil => rfl
  | cons c cs ih =>
    rw [List.dropWhile_cons]
    by_cases hws : isWsChar c
    · rw [if_pos (by simp [hws])]
      exact ih (midOk_tail c cs h)
    · rw [if_neg (by simp [hws])]
      exact h

theorem headNonWs_dropWhile (s : Str) : headNonWs (s.dropWhile isWsChar) = true := by
  induction s with
  | nil => rfl
  | cons c cs ih =>
    rw [List.dropWhile_cons]
    by_cases hws : isWsChar c
    · rw [if_pos (by simp [hws])]
      exact ih
    · rw [if_neg (by simp [hws])]
      show (!isWsChar c) = true
      simp [hws]

theorem headNonWs_trimTrail (s : Str) (h : headNonWs s = true) :
    headNonWs (trimTrail s) = true := by
  cases s with
  | nil => rfl
  | cons c cs =>
    rw [trimTrail_cons]
    by_cases hc : trimTrail cs = [] ∧ isWsChar c = true
    · rw [if_pos hc]; rfl
    · rw [if_neg hc]; exact h

theorem canonS_fmt_output (y : Str) :
    canonS (trimStr (collapseWs (spaceAfter y))) = true ∧
    headNonWs (trimStr (collapseWs (spaceAfter y))) = true := by
  unfold trimStr collapseWs
  constructor
  · exact canonS_trimTrail _ (dropWhile_midOk _ (midOk_collapse_spaceAfter y false))
  · exact headNonWs_trimTrail _ (headNonWs_dropWhile _)

/-! ## Formatter: re-formatting canonical text -/

theorem trimTrail_canonS (z : Str) (h : canonS z = true) : trimTrail z = z := by
  induction z with
  | nil => rfl
  | cons c cs ih =>
    rw [trimTrail_cons]
    cases cs with
    | nil =>
      rw [canonS_one] at h
      rw [if_neg (fun hh : _ ∧ _ => by rw [hh.2] at h; exact absurd h (by simp))]
      rfl
    | cons d r =>
      rw [ih (canonS_tail c _ h)]
      rw [if_neg (fun hh : _ ∧ _ => by exact absurd hh.1 (by simp))]

theorem trimTrail_append_space (z : Str) (h : canonS z = true) :
    trimTrail (z ++ [' ']) = z := by
  induction z with
  | nil => rfl
  | cons c cs ih =>
    rw [List.cons_append, trimTrail_cons]
    cases cs with
    | nil =>
      rw [canonS_one] at h
      have h0 : trimTrail ([] ++ [' ']) = [] := rfl
      rw [h0, if_neg (fun hh : _ ∧ _ => by rw [hh.2] at h; exact absurd h (by simp))]
    | cons d r =>
      rw [ih (canonS_tail c _ h)]
      rw [if_neg (fun hh : _ ∧ _ => by exact absurd hh.1 (by simp))]

theorem dropWhile_headNonWs (z : Str) (h : headNonWs z = true) :
    z.dropWhile isWsChar = z := by
  cases z with
  | nil => rfl
  | cons c cs =>
    have : isWsChar c = false := by
      cases hw : isWsChar c
      · rfl
      · rw [show headNonWs (c :: cs) = !isWsChar c from rfl, hw] at h
        exact absurd h (by simp)
    rw [List.dropWhile_cons, if_neg (by simp [this])]

theorem headNonWs_append (z w : Str) (hz : z ≠ []) (h : headNonWs z = true) :
    headNonWs (z ++ w) = true := by
  cases z with
  | nil => exact absurd rfl hz
  | cons c cs => exact h

theorem collapse_spaceAfter_canon :
    ∀ (n : Nat) (z : Str), z.length ≤ n → canonS z = true →
    collapseGo false (spaceAfter z) =
      z ++ (if lastIsPunct z then [' '] else []) := by
  intro n
  induction n with
  | zero =>
    intro z hz _
    have hznil : z = [] := List.eq_nil_of_length_eq_zero (Nat.le_zero.mp hz)
    subst hznil
    rfl
  | succ n ih =>
    intro z hz hc
    cases z with
    | nil => rfl
    | cons c cs =>
      by_cases hp : punctChar c
      · have hcw : isWsChar c = false := punct_not_ws c hp
        rw [spaceAfter_cons, if_pos hp, List.cons_append, List.cons_append,
          List.nil_append, collapseGo_cons, if_neg (by simp [hcw]), collapseGo_cons,
          if_pos (by decide)]
        simp only [if_neg (show ¬(false = true) by simp)]
        cases cs with
        | nil =>
          rw [show lastIsPunct [c] = punctChar c from rfl, if_pos hp]
          rfl
        | cons d r =>
          have hd : d = ' ' := by
            rw [canonS_cons2, Bool.and_eq_true] at hc
            have hcond := hc.1
            rw [if_neg (by simp [hcw]), if_pos hp] at hcond
            simpa using hcond
          subst hd
          rw [spaceAfter_cons, if_neg (by decide), List.cons_append, List.nil_append,
            collapseGo_cons, if_pos (by decide)]
          simp only [if_pos rfl]
          cases r with
          | nil =>
            rw [show lastIsPunct (c :: [' ']) = false from rfl]
            rfl
          | cons e r' =>
            have he : isWsChar e = false := by
              have h2 := canonS_tail c _ hc
              rw [canonS_cons2, Bool.and_eq_true] at h2
              have hcond := h2.1
              rw [if_pos (by decide), Bool.and_eq_true] at hcond
              simpa using hcond.2
            have hccr : canonS (e :: r') = true :=
              canonS_tail _ _ (canonS_tail c _ hc)
            rw [collapseGo_flagSwitch _ (headNonWs_spaceAfter e r' he),
              ih (e :: r') (by simp at hz ⊢; omega) hccr,
              lastIsPunct_cons2, lastIsPunct_cons2]
            rfl
      · by_cases hws : isWsChar c
        · cases cs with
          | nil =>
            rw [canonS_one, hws] at hc
            exact absurd hc (by simp)
          | cons d r =>
            have hcond : (c == ' ' && !isWsChar d) = true := by
              rw [canonS_cons2, Bool.and_eq_true] at hc
              have := hc.1
              rwa [if_pos hws] at this
            rw [Bool.and_eq_true] at hcond
            have hceq : c = ' ' := by simpa using hcond.1
            have hd : isWsChar d = false := by simpa using hcond.2
            have hctail : canonS (d :: r) = true := canonS_tail c _ hc
            rw [spaceAfter_cons, if_neg hp, List.cons_append, List.nil_append,
              collapseGo_cons, if_pos hws]
            simp only [if_neg (show ¬(false = true) by simp)]
            rw [collapseGo_flagSwitch _ (headNonWs_spaceAfter d r hd),
              ih (d :: r) (by simp at hz ⊢; omega) hctail, hceq,
              lastIsPunct_cons2]
            rfl
        · have hctail : canonS cs = true := canonS_tail c cs hc
          rw [spaceAfter_cons, if_neg hp, List.cons_append, List.nil_append,
            collapseGo_cons, if_neg (by simp [hws]),
            ih cs (by simp at hz ⊢; omega) hctail]
          cases cs with
          | nil =>
            have hpf : punctChar c = false := by simpa using hp
            rw [show lastIsPunct [c] = punctChar c from rfl, hpf]
            rfl
          | cons d r =>
            rw [lastIsPunct_cons2]
            rfl

/-- C3 core: formatting one line is idempotent. -/
theorem fmtLine_idem (x : Str) : fmtLine (fmtLine x) = fmtLine x := by
  have hz := canonS_fmt_output (upperKw x)
  have hcanon : canonS (fmtLine x) = true := hz.1
  have hhead : headNonWs (fmtLine x) = true := hz.2
  have hA : upperKw (fmtLine x) = fmtLine x := upperKw_fmtLine x
  show trimStr (collapseWs (spaceAfter (upperKw (fmtLine x)))) = fmtLine x
  rw [hA]
  unfold trimStr collapseWs
  rw [collapse_spaceAfter_canon (fmtLine x).length (fmtLine x) (Nat.le_refl _) hcanon]
  by_cases hlast : lastIsPunct (fmtLine x) = true
  · rw [if_pos hlast]
    have hne : fmtLine x ≠ [] := by
      intro hnil
      rw [hnil] at hlast
      exact absurd hlast (by simp [lastIsPunct])
    rw [dropWhile_headNonWs _ (headNonWs_append _ _ hne hhead),
      trimTrail_append_space _ hcanon]
  · rw [if_neg hlast, List.append_nil,
      dropWhile_headNonWs _ hhead, trimTrail_canonS _ hcanon]

/-! ## Formatter: lifting idempotence from lines to the whole text -/

theorem mem_trimTrail (c : Char) (v : Str) (h : c ∈ trimTrail v) : c ∈ v := by
  induction v with
  | nil => exact absurd h (by simp [trimTrail])
  | cons d cs ih =>
    rw [trimTrail_cons] at h
    by_cases hc : trimTrail cs = [] ∧ isWsChar d = true
    · rw [if_pos hc] at h
      exact absurd h (by simp)
    · rw [if_neg hc] at h
      rcases List.mem_cons.mp h with h | h
      · exact h ▸ List.mem_cons_self d cs
      · exact List.mem_cons_of_mem d (ih h)

theorem mem_collapseGo (c : Char) (v : Str) :
    ∀ f, c ∈ collapseGo f v → c ∈ v ∨ c = ' ' := by
  induction v with
  | nil => intro f h; exact absurd h (by simp [collapseGo])
  | cons d cs ih =>
    intro f h
    rw [collapseGo_cons] at h
    by_cases hws : isWsChar d
    · rw [if_pos hws] at h
      cases f with
      | true =>
        simp only [if_pos rfl] at h
        rcases ih true h with h | h
        · exact Or.inl (List.mem_cons_of_mem d h)
        · exact Or.inr h
      | false =>
        simp only [if_neg (show ¬(false = true) by simp)] at h
        rcases List.mem_cons.mp h with h | h
        · exact Or.inr h
        · rcases ih true h with h | h
          · exact Or.inl (List.mem_cons_of_mem d h)
          · exact Or.inr h
    · rw [if_neg hws] at h
      rcases List.mem_cons.mp h with h | h
      · exact Or.inl (h ▸ List.mem_cons_self d cs)
      · rcases ih false h with h | h
        · exact Or.inl (List.mem_cons_of_mem d h)
        · exact Or.inr h

theorem mem_spaceAfter (c : Char) (v : Str) (h : c ∈ spaceAfter v) : c ∈ v ∨ c = ' ' := by
  unfold spaceAfter at h
  rw [List.mem_flatMap] at h
  obtain ⟨d, hd, hc⟩ := h
  by_cases hp : punctChar d
  · rw [if_pos hp] at hc
    rcases List.mem_cons.mp hc with h | h
    · exact Or.inl (h ▸ hd)
    · exact Or.inr (by simpa using h)
  · rw [if_neg hp] at hc
    exact Or.inl ((by simpa using hc : c = d) ▸ hd)

theorem mem_unlex (c : Char) (ts : List Tok) :
    c ∈ unlex ts ↔ ∃ t ∈ ts,
      c ∈ (match t with | Tok.word w => w | Tok.sym d => [d]) := by
  unfold unlex
  rw [List.mem_flatMap]

theorem mem_upperKw (c : Char) (v : Str) (h : c ∈ upperKw v) :
    c ∈ v ∨ ∃ c₀ ∈ v, upChar c₀ = c := by
  unfold upperKw at h
  rw [mem_unlex] at h
  obtain ⟨t, ht, hc⟩ := h
  rw [List.mem_map] at ht
  obtain ⟨t₀, ht₀, hup⟩ := ht
  have hmem : ∀ d, d ∈ (match t₀ with | Tok.word w => w | Tok.sym e => [e]) → d ∈ v := by
    intro d hd
    have : d ∈ unlex (lex v) := (mem_unlex d (lex v)).mpr ⟨t₀, ht₀, hd⟩
    rwa [unlex_lex] at this
  cases t₀ with
  | sym e =>
    rw [← hup] at hc
    have hce : c = e := by simpa [upTok] using hc
    exact Or.inl (hmem c (by simp [hce]))
  | word w =>
    rw [← hup] at hc
    have hc' : c ∈ kwUpper w := hc
    rcases kwUpper_cases w with ⟨hkw, he⟩ | ⟨hkw, he⟩
    · rw [he] at hc'
      unfold upStr at hc'
      rw [List.mem_map] at hc'
      obtain ⟨c₀, hc₀, hupc⟩ := hc'
      exact Or.inr ⟨c₀, hmem c₀ hc₀, hupc⟩
    · rw [he] at hc'
      exact Or.inl (hmem c hc')

theorem upChar_eq_newline (c : Char) (h : upChar c = '\n') : c = '\n' := by
  have ht : (upChar c).toNat = 10 := by rw [h]; rfl
  rw [toNat_upChar] at ht
  rw [char_eq_iff_toNat]
  show c.toNat = 10
  split at ht <;> omega

theorem newline_not_mem_fmtLine (l : Str) (h : '\n' ∉ l) : '\n' ∉ fmtLine l := by
  intro hmem
  unfold fmtLine trimStr at hmem
  have h1 := mem_trimTrail _ _ hmem
  have h2 := List.dropWhile_sublist (p := isWsChar) |>.subset h1
  rcases mem_collapseGo _ _ false h2 with h3 | h3
  · rcases mem_spaceAfter _ _ h3 with h4 | h4
    · rcases mem_upperKw _ _ h4 with h5 | ⟨c₀, hc₀, hup⟩
      · exact h h5
      · exact h (upChar_eq_newline c₀ hup ▸ hc₀)
    · exact absurd h4 (by decide)
  · exact absurd h3 (by decide)

theorem splitOnCharGo_no_sep (sep : Char) :
    ∀ (l acc : Str), (∀ c ∈ l, c ≠ sep) →
    splitOnCharGo sep acc l = [acc.reverse ++ l] := by
  intro l
  induction l with
  | nil => intro acc _; simp [splitOnCharGo]
  | cons c cs ih =>
    intro acc hl
    rw [splitOnCharGo, if_neg (hl c (List.mem_cons_self c cs)),
      ih (c :: acc) (fun d hd => hl d (List.mem_cons_of_mem c hd))]
    simp

theorem splitOnCharGo_sep_append (sep : Char) :
    ∀ (l acc u : Str), (∀ c ∈ l, c ≠ sep) →
    splitOnCharGo sep acc (l ++ sep :: u) =
      (acc.reverse ++ l) :: splitOnCharGo sep [] u := by
  intro l
  induction l with
  | nil =>
    intro acc u _
    rw [List.nil_append, splitOnCharGo, if_pos rfl]
    simp
  | cons c cs ih =>
    intro acc u hl
    rw [List.cons_append, splitOnCharGo, if_neg (hl c (List.mem_cons_self c cs)),
      ih (c :: acc) u (fun d hd => hl d (List.mem_cons_of_mem c hd))]
    simp

theorem mem_splitOnCharGo_no_sep (sep : Char) :
    ∀ (l acc piece : Str), (∀ c ∈ acc, c ≠ sep) →
    piece ∈ splitOnCharGo sep acc l → sep ∉ piece := by
  intro l
  induction l with
  | nil =>
    intro acc piece hacc hp
    rw [splitOnCharGo] at hp
    rw [List.mem_singleton.mp hp]
    intro hmem
    exact hacc sep (by simpa using hmem) rfl
  | cons c cs ih =>
    intro acc piece hacc hp
    rw [splitOnCharGo] at hp
    by_cases hc : c = sep
    · rw [if_pos hc] at hp
      rcases List.mem_cons.mp hp with hp | hp
      · rw [hp]
        intro hmem
        exact hacc sep (by simpa using hmem) rfl
      · exact ih [] piece (by simp) hp
    · rw [if_neg hc] at hp
      refine ih (c :: acc) piece ?_ hp
      intro d hd
      rcases List.mem_cons.mp hd with hd | hd
      · rw [hd]; exact hc
      · exact hacc d hd

theorem splitOnCharGo_ne_nil (sep : Char) :
    ∀ (l acc : Str), splitOnCharGo sep acc l ≠ [] := by
  intro l
  induction l with
  | nil => intro acc; simp [splitOnCharGo]
  | cons c cs ih =>
    intro acc
    rw [splitOnCharGo]
    by_cases hc : c = sep
    · rw [if_pos hc]; simp
    · rw [if_neg hc]; exact ih (c :: acc)

theorem splitOnChar_no_sep (sep : Char) (s piece : Str)
    (h : piece ∈ splitOnChar sep s) : sep ∉ piece :=
  mem_splitOnCharGo_no_sep sep s [] piece (by simp) h

theorem splitOnChar_joinNL :
    ∀ (ls : List Str), ls ≠ [] → (∀ l ∈ ls, '\n' ∉ l) →
    splitOnChar '\n' (joinNL ls) = ls := by
  intro ls
  induction ls with
  | nil => intro h _; exact absurd rfl h
  | cons l ls ih =>
    intro _ hnl
    cases ls with
    | nil =>
      show splitOnChar '\n' l = [l]
      unfold splitOnChar
      rw [splitOnCharGo_no_sep '\n' l []
        (fun c hc heq => hnl l (List.mem_cons_self l []) (heq ▸ hc))]
      simp
    | cons l2 ls2 =>
      show splitOnChar '\n' (l ++ '\n' :: joinNL (l2 :: ls2)) = l :: l2 :: ls2
      unfold splitOnChar
      rw [splitOnCharGo_sep_append '\n' l [] (joinNL (l2 :: ls2))
        (fun c hc hceq => hnl l (List.mem_cons_self l _) (hceq ▸ hc))]
      rw [show splitOnCharGo '\n' [] (joinNL (l2 :: ls2)) =
        splitOnChar '\n' (joinNL (l2 :: ls2)) from rfl]
      rw [ih (by simp) (fun l' hl' => hnl l' (List.mem_cons_of_mem l hl'))]
      simp

set_option maxHeartbeats 1000000 in
theorem formatText_idem (t : Str) : formatText (formatText t) = formatText t := by
  unfold formatText
  rw [splitOnChar_joinNL ((splitOnChar '\n' t).map fmtLine)
    (by
      intro hmap
      exact splitOnCharGo_ne_nil '\n' t [] (by simpa using hmap))
    (by
      intro l hl
      rw [List.mem_map] at hl
      obtain ⟨l₀, hl₀, hfl⟩ := hl
      rw [← hfl]
      exact newline_not_mem_fmtLine l₀ (splitOnChar_no_sep '\n' t l₀ hl₀)), List.map_map]
  have : fmtLine ∘ fmtLine = fmtLine := funext fmtLine_idem
  rw [this]

/-- C3 counterexample: formatting the line index  users,filter yields
INDEX users, FILTER, not the claimed INDEX users, filter — the token
filter is itself one of the 7 keywords and is uppercased by the
whole-word case-insensitive replacement. -/
theorem format_example_counterexample :
    format (some (str "index  users,filter")) = [str "INDEX users, FILTER"] ∧
    str "INDEX users, FILTER" ≠ str "INDEX users, filter" := by
  exact ⟨rfl, by decide⟩

/-- C3 (amended): format is idempotent — a document that is already
format output is returned unchanged — and formatting the line
index  users,filter over its full range yields INDEX users, FILTER
(filter is also uppercased, being one of the 7 keyword tokens); the
per-line rules (whole-word case-insensitive keyword uppercasing, a
single space inserted after each of comma and the four brackets,
whitespace runs collapsed to one space, leading/trailing whitespace
trimmed) are as claimed. -/
theorem format_idempotent :
    (∀ doc : Str, format (some (formatText doc)) = [formatText doc]) ∧
    (∀ t : Str, formatText (formatText t) = formatText t) ∧
    format (some (str "index  users,filter")) = [str "INDEX users, FILTER"] := by
  refine ⟨?_, formatText_idem, rfl⟩
  intro doc
  show [formatText (formatText doc)] = [formatText doc]
  rw [formatText_idem]

/-- C8: documentSymbols reports, per line, one entry per textual occurrence
of the 7 keywords (case-insensitively, as whole words — `INDEXED` never
matches `INDEX`) and of the 4 field paths, with each entry's column span
computed from the first occurrence (`indexOf`) of the matched text in the
line (a repeated token yields duplicate spans); keyword matches have the
Keyword kind and field matches the Variable kind.  The concrete conjuncts
exhibit the whole-word and duplicate-span behaviors. -/
theorem findDocumentSymbols_spec (doc : Option Str) :
    findDocumentSymbols doc = symbolsSpec doc ∧
    findDocumentSymbols (some (str "INDEXED foo")) = [] ∧
    findDocumentSymbols (some (str "INDEX bar INDEX")) =
      [⟨str "INDEX", symbolKindKeyword, 0, 0, 5⟩,
       ⟨str "INDEX", symbolKindKeyword, 0, 0, 5⟩] := by
  refine ⟨?_, by decide, by decide⟩
  unfold findDocumentSymbols symbolsSpec
  cases doc with
  | none => rfl
  | some text => simp only [lineSymbols_eq_spec]

end EchoQuery
